import Mathlib

/-!
# Verification of the sucrase token-stream rewriting engine

Shallow embedding of the annotated-token rewriting pipeline:
the balanced-range walk and output assembly of `RootTransformer`
(src/src/transformers/RootTransformer.ts), the JSX transformer
(the JSXTransformer portion of src/src/register.ts), and the
binding-atom parser (src/sucrase-babylon/parser/lval.ts).

Design notes on the embedding:
* Machine state is explicit: the Token Cursor & Editor ("TokenProcessor",
  not part of the excerpted sources) is modelled from the spec, section 4.2,
  as a cursor over a list of remaining tokens plus a list of emitted
  fragments.  Each token carries the untouched source region preceding it
  (`pre`), its own text (`raw`), and the transform-time annotations.
* Loops are given explicit fuel and return `Option`/`Except`; `none`
  covers both fuel exhaustion and the fatal errors of the source
  (which aborts the run on a thrown `Error`).
* JavaScript strings are modelled as `String`/`List Char` (the sources
  iterate over code units or code points of plain text).
-/

set_option maxRecDepth 4096

/-- Token type tags, the subset of the closed enumeration in
`sucrase-babylon/tokenizer/types` that the excerpted code inspects. -/
inductive TokType where
  | braceL
  | braceR
  | dollarBraceL
  | parenL
  | parenR
  | bracketL
  | bracketR
  | jsxTagStart
  | jsxTagEnd
  | jsxName
  | jsxText
  | slash
  | eq
  | name
  | str
  | num
  | semi
  | comma
  | dot
  | colon
  | ellipsis
  | _class
  | _this
  | _yield
  | eof
  | other
deriving DecidableEq

/-! ## C2: the balanced-range walk (`RootTransformer.processBalancedCode`)

The walk only inspects token types via `matches1`, so it is embedded over a
list of token types; the list is the sequence of remaining tokens from the
cursor position (so quantifying over all lists covers all starting cursor
positions).  `processToken` is modelled as consuming the one token at the
cursor (the Token Cursor guarantee of spec section 4.2: every consuming
operation advances the cursor by exactly one token). -/

/-- Embedding of the loop body of `processBalancedCode`
(src/src/transformers/RootTransformer.ts, lines 88-110), returning the
number of tokens consumed before the walk returns.  `bd`/`pd` are the
`braceDepth`/`parenDepth` local variables. -/
def pbcRun : List TokType → Nat → Nat → Nat
  | [], _, _ => 0
  | t :: rest, bd, pd =>
    if t = TokType.braceL ∨ t = TokType.dollarBraceL then
      pbcRun rest (bd + 1) pd + 1
    else if t = TokType.braceR then
      if bd = 0 then 0 else pbcRun rest (bd - 1) pd + 1
    else if t = TokType.parenL then
      pbcRun rest bd (pd + 1) + 1
    else if t = TokType.parenR then
      if pd = 0 then 0 else pbcRun rest bd (pd - 1) + 1
    else
      pbcRun rest bd pd + 1

/-- Entry point `processBalancedCode` from the start state (`braceDepth = 0`,
`parenDepth = 0`): the index, relative to the entry cursor position, at
which the walk returns. -/
def processBalancedCode (ts : List TokType) : Nat := pbcRun ts 0 0

/-- Depth contribution of one token to the brace nesting depth: an opening
brace or a template-interpolation opening brace counts +1, a closing brace
counts -1. -/
def braceDelta : TokType → Int
  | TokType.braceL => 1
  | TokType.dollarBraceL => 1
  | TokType.braceR => -1
  | _ => 0

/-- Depth contribution of one token to the parenthesis nesting depth. -/
def parenDelta : TokType → Int
  | TokType.parenL => 1
  | TokType.parenR => -1
  | _ => 0

/-- Brace nesting depth accumulated by a token sequence. -/
def braceSum (ts : List TokType) : Int := (ts.map braceDelta).sum

/-- Parenthesis nesting depth accumulated by a token sequence. -/
def parenSum (ts : List TokType) : Int := (ts.map parenDelta).sum

/-- Position `i` is an underflow point relative to entry depths `bd`, `pd`:
the token there is a closer whose respective depth is exactly at the entry
level, so processing it would take the depth below that level. -/
def underflowFrom (bd pd : Nat) (ts : List TokType) (i : Nat) : Prop :=
  (ts.get? i = some TokType.braceR ∧ (bd : Int) + braceSum (ts.take i) = 0) ∨
  (ts.get? i = some TokType.parenR ∧ (pd : Int) + parenSum (ts.take i) = 0)

/-- Underflow relative to the entry state of `processBalancedCode`. -/
def underflowAt (ts : List TokType) (i : Nat) : Prop := underflowFrom 0 0 ts i

instance (bd pd : Nat) (ts : List TokType) (i : Nat) :
    Decidable (underflowFrom bd pd ts i) :=
  inferInstanceAs (Decidable (_ ∨ _))

instance (ts : List TokType) (i : Nat) : Decidable (underflowAt ts i) :=
  inferInstanceAs (Decidable (underflowFrom 0 0 ts i))

theorem pbcRun_cons (t : TokType) (rest : List TokType) (bd pd : Nat) :
    pbcRun (t :: rest) bd pd =
      (if t = TokType.braceL ∨ t = TokType.dollarBraceL then
        pbcRun rest (bd + 1) pd + 1
      else if t = TokType.braceR then
        if bd = 0 then 0 else pbcRun rest (bd - 1) pd + 1
      else if t = TokType.parenL then
        pbcRun rest bd (pd + 1) + 1
      else if t = TokType.parenR then
        if pd = 0 then 0 else pbcRun rest bd (pd - 1) + 1
      else
        pbcRun rest bd pd + 1) := rfl

theorem pbcRun_nil (bd pd : Nat) : pbcRun [] bd pd = 0 := rfl

theorem braceSum_cons (t : TokType) (l : List TokType) :
    braceSum (t :: l) = braceDelta t + braceSum l := by
  simp [braceSum]

theorem parenSum_cons (t : TokType) (l : List TokType) :
    parenSum (t :: l) = parenDelta t + parenSum l := by
  simp [parenSum]

theorem underflowFrom_cons (bd pd bd' pd' : Nat) (t : TokType)
    (rest : List TokType) (i : Nat)
    (hb : (bd : Int) + braceDelta t = (bd' : Int))
    (hp : (pd : Int) + parenDelta t = (pd' : Int)) :
    underflowFrom bd pd (t :: rest) (i + 1) ↔ underflowFrom bd' pd' rest i := by
  unfold underflowFrom
  have hTake : (t :: rest).take (i + 1) = t :: rest.take i := rfl
  have hGet : (t :: rest).get? (i + 1) = rest.get? i := rfl
  rw [hTake, hGet, braceSum_cons, parenSum_cons, ← add_assoc, ← add_assoc, hb, hp]

theorem underflowFrom_zero (bd pd : Nat) (t : TokType) (rest : List TokType) :
    underflowFrom bd pd (t :: rest) 0 ↔
      (t = TokType.braceR ∧ bd = 0) ∨ (t = TokType.parenR ∧ pd = 0) := by
  unfold underflowFrom
  simp [braceSum, parenSum]

theorem pbcRun_spec (ts : List TokType) : ∀ bd pd : Nat,
    pbcRun ts bd pd ≤ ts.length ∧
    (∀ i, i < pbcRun ts bd pd → ¬ underflowFrom bd pd ts i) ∧
    (pbcRun ts bd pd < ts.length → underflowFrom bd pd ts (pbcRun ts bd pd)) := by
  induction ts with
  | nil =>
    intro bd pd
    refine ⟨Nat.le_refl _, ?_, ?_⟩
    · intro i hi; rw [pbcRun_nil] at hi; omega
    · intro h; rw [pbcRun_nil] at h; simp at h
  | cons t rest ih =>
    intro bd pd
    by_cases hBL : t = TokType.braceL ∨ t = TokType.dollarBraceL
    · -- opening brace: depth increments
      have hrun : pbcRun (t :: rest) bd pd = pbcRun rest (bd + 1) pd + 1 := by
        rw [pbcRun_cons]; simp [hBL]
      have hdelta : (bd : Int) + braceDelta t = ((bd + 1 : Nat) : Int) := by
        rcases hBL with h | h <;> subst h <;> simp [braceDelta]
      have hpdelta : (pd : Int) + parenDelta t = (pd : Int) := by
        rcases hBL with h | h <;> subst h <;> simp [parenDelta]
      obtain ⟨ih1, ih2, ih3⟩ := ih (bd + 1) pd
      refine ⟨?_, ?_, ?_⟩
      · rw [hrun]; simpa using Nat.succ_le_succ ih1
      · intro i hi
        rw [hrun] at hi
        match i with
        | 0 =>
          rw [underflowFrom_zero]
          rintro (⟨h1, _⟩ | ⟨h1, _⟩) <;> rcases hBL with h | h <;> simp [h] at h1
        | Nat.succ j =>
          rw [underflowFrom_cons bd pd (bd + 1) pd t rest j hdelta hpdelta]
          exact ih2 j (by omega)
      · intro hlt
        rw [hrun] at hlt ⊢
        rw [underflowFrom_cons bd pd (bd + 1) pd t rest _ hdelta hpdelta]
        exact ih3 (by simpa using Nat.lt_of_succ_lt_succ hlt)
    · by_cases hBR : t = TokType.braceR
      · subst hBR
        by_cases hz : bd = 0
        · subst hz
          have hrun : pbcRun (TokType.braceR :: rest) 0 pd = 0 := by
            rw [pbcRun_cons]; simp
          refine ⟨by rw [hrun]; exact Nat.zero_le _, ?_, ?_⟩
          · intro i hi; rw [hrun] at hi; omega
          · intro _
            rw [hrun, underflowFrom_zero]
            exact Or.inl ⟨rfl, rfl⟩
        · have hrun : pbcRun (TokType.braceR :: rest) bd pd =
              pbcRun rest (bd - 1) pd + 1 := by
            rw [pbcRun_cons]; simp [hz]
          have hdelta : (bd : Int) + braceDelta TokType.braceR =
              ((bd - 1 : Nat) : Int) := by
            simp [braceDelta]; omega
          have hpdelta : (pd : Int) + parenDelta TokType.braceR = (pd : Int) := by
            simp [parenDelta]
          obtain ⟨ih1, ih2, ih3⟩ := ih (bd - 1) pd
          refine ⟨?_, ?_, ?_⟩
          · rw [hrun]; simpa using Nat.succ_le_succ ih1
          · intro i hi
            rw [hrun] at hi
            match i with
            | 0 =>
              rw [underflowFrom_zero]
              rintro (⟨_, h2⟩ | ⟨h1, _⟩)
              · exact hz h2
              · simp at h1
            | Nat.succ j =>
              rw [underflowFrom_cons bd pd (bd - 1) pd _ rest j hdelta hpdelta]
              exact ih2 j (by omega)
          · intro hlt
            rw [hrun] at hlt ⊢
            rw [underflowFrom_cons bd pd (bd - 1) pd _ rest _ hdelta hpdelta]
            exact ih3 (by simpa using Nat.lt_of_succ_lt_succ hlt)
      · by_cases hPL : t = TokType.parenL
        · subst hPL
          have hrun : pbcRun (TokType.parenL :: rest) bd pd =
              pbcRun rest bd (pd + 1) + 1 := by
            rw [pbcRun_cons]; simp
          have hdelta : (bd : Int) + braceDelta TokType.parenL = (bd : Int) := by
            simp [braceDelta]
          have hpdelta : (pd : Int) + parenDelta TokType.parenL =
              ((pd + 1 : Nat) : Int) := by
            simp [parenDelta]
          obtain ⟨ih1, ih2, ih3⟩ := ih bd (pd + 1)
          refine ⟨?_, ?_, ?_⟩
          · rw [hrun]; simpa using Nat.succ_le_succ ih1
          · intro i hi
            rw [hrun] at hi
            match i with
            | 0 =>
              rw [underflowFrom_zero]
              rintro (⟨h1, _⟩ | ⟨h1, _⟩) <;> simp at h1
            | Nat.succ j =>
              rw [underflowFrom_cons bd pd bd (pd + 1) _ rest j hdelta hpdelta]
              exact ih2 j (by omega)
          · intro hlt
            rw [hrun] at hlt ⊢
            rw [underflowFrom_cons bd pd bd (pd + 1) _ rest _ hdelta hpdelta]
            exact ih3 (by simpa using Nat.lt_of_succ_lt_succ hlt)
        · by_cases hPR : t = TokType.parenR
          · subst hPR
            by_cases hz : pd = 0
            · subst hz
              have hrun : pbcRun (TokType.parenR :: rest) bd 0 = 0 := by
                rw [pbcRun_cons]; simp
              refine ⟨by rw [hrun]; exact Nat.zero_le _, ?_, ?_⟩
              · intro i hi; rw [hrun] at hi; omega
              · intro _
                rw [hrun, underflowFrom_zero]
                exact Or.inr ⟨rfl, rfl⟩
            · have hrun : pbcRun (TokType.parenR :: rest) bd pd =
                  pbcRun rest bd (pd - 1) + 1 := by
                rw [pbcRun_cons]; simp [hz]
              have hdelta : (bd : Int) + braceDelta TokType.parenR = (bd : Int) := by
                simp [braceDelta]
              have hpdelta : (pd : Int) + parenDelta TokType.parenR =
                  ((pd - 1 : Nat) : Int) := by
                simp [parenDelta]; omega
              obtain ⟨ih1, ih2, ih3⟩ := ih bd (pd - 1)
              refine ⟨?_, ?_, ?_⟩
              · rw [hrun]; simpa using Nat.succ_le_succ ih1
              · intro i hi
                rw [hrun] at hi
                match i with
                | 0 =>
                  rw [underflowFrom_zero]
                  rintro (⟨h1, _⟩ | ⟨_, h2⟩)
                  · simp at h1
                  · exact hz h2
                | Nat.succ j =>
                  rw [underflowFrom_cons bd pd bd (pd - 1) _ rest j hdelta hpdelta]
                  exact ih2 j (by omega)
              · intro hlt
                rw [hrun] at hlt ⊢
                rw [underflowFrom_cons bd pd bd (pd - 1) _ rest _ hdelta hpdelta]
                exact ih3 (by simpa using Nat.lt_of_succ_lt_succ hlt)
          · -- an ordinary token: both depths unchanged
            have hrun : pbcRun (t :: rest) bd pd = pbcRun rest bd pd + 1 := by
              rw [pbcRun_cons]
              simp [hBL, hBR, hPL, hPR]
            have hdelta : (bd : Int) + braceDelta t = (bd : Int) := by
              cases t <;> simp [braceDelta] <;> tauto
            have hpdelta : (pd : Int) + parenDelta t = (pd : Int) := by
              cases t <;> simp [parenDelta] <;> tauto
            obtain ⟨ih1, ih2, ih3⟩ := ih bd pd
            refine ⟨?_, ?_, ?_⟩
            · rw [hrun]; simpa using Nat.succ_le_succ ih1
            · intro i hi
              rw [hrun] at hi
              match i with
              | 0 =>
                rw [underflowFrom_zero]
                rintro (⟨h1, _⟩ | ⟨h1, _⟩)
                · exact hBR h1
                · exact hPR h1
              | Nat.succ j =>
                rw [underflowFrom_cons bd pd bd pd _ rest j hdelta hpdelta]
                exact ih2 j (by omega)
            · intro hlt
              rw [hrun] at hlt ⊢
              rw [underflowFrom_cons bd pd bd pd _ rest _ hdelta hpdelta]
              exact ih3 (by simpa using Nat.lt_of_succ_lt_succ hlt)

/-- C2: For every token sequence and starting cursor position (the sequence
of tokens remaining at the cursor), the balanced-range walk
`processBalancedCode` consumes tokens one at a time while tracking brace
and parenthesis nesting depth, counting `dollarBraceL` as a brace, and
returns exactly at the first position where a closing brace or closing
parenthesis would take its respective depth below the level at entry
(`underflowAt`), or at the end of the sequence when no such position
exists. -/
theorem processBalancedCode_stops_at_first_underflow (ts : List TokType) :
    processBalancedCode ts ≤ ts.length ∧
    (∀ i, i < processBalancedCode ts → ¬ underflowAt ts i) ∧
    (processBalancedCode ts < ts.length →
      underflowAt ts (processBalancedCode ts)) := by
  obtain ⟨h1, h2, h3⟩ := pbcRun_spec ts 0 0
  exact ⟨h1, h2, h3⟩

/-- Witness for C2: on `{ } )` the walk consumes the balanced brace pair
and stops exactly at the unmatched closing parenthesis (index 2), which is
an underflow point, and indices 0 and 1 are not underflow points. -/
theorem processBalancedCode_stops_at_first_underflow_witness :
    processBalancedCode
        [TokType.braceL, TokType.braceR, TokType.parenR] = 2 ∧
    underflowAt [TokType.braceL, TokType.braceR, TokType.parenR] 2 ∧
    ¬ underflowAt [TokType.braceL, TokType.braceR, TokType.parenR] 0 := by
  refine ⟨by decide, ?_, ?_⟩
  · exact (processBalancedCode_stops_at_first_underflow
      [TokType.braceL, TokType.braceR, TokType.parenR]).2.2 (by decide)
  · exact (processBalancedCode_stops_at_first_underflow
      [TokType.braceL, TokType.braceR, TokType.parenR]).2.1 0 (by decide)

/-! ## The Token Cursor & Editor

Modelled from the spec: the TokenProcessor (src/src/TokenProcessor.ts is not
part of the excerpt; spec section 4.2).  A token carries the untouched
source region before it (`pre`), its raw text, and the annotations of spec
section 3.  The cursor state holds the number of consumed tokens (the
current token index), the remaining tokens, and the emitted fragments in
order; `finish` is their concatenation.  Per the spec: `copy` emits the
token's original text and advances by one; `replace` emits the supplied
text instead; `append` emits text without consuming; `remove` advances
while emitting no replacement text (the untouched preceding region is still
reproduced byte-for-byte), and the initial-removal variant also discards
the preceding region. -/

/-- One annotated token (spec section 3). -/
structure Tok where
  ttype : TokType
  pre : String := ""
  raw : String := ""
  contextId : Option Nat := none
  isType : Bool := false
deriving DecidableEq

/-- Cursor state over the token sequence plus emitted output. -/
structure TP where
  past : Nat := 0
  toks : List Tok
  out : List String := []
deriving DecidableEq

def TP.currentType (tp : TP) : Option TokType := tp.toks.head?.map (fun t => t.ttype)

def TP.isAtEnd (tp : TP) : Bool := tp.toks.isEmpty

def TP.matches1 (tp : TP) (t : TokType) : Bool :=
  match tp.toks with
  | tok :: _ => tok.ttype = t
  | [] => false

def TP.matches2 (tp : TP) (t1 t2 : TokType) : Bool :=
  match tp.toks with
  | a :: b :: _ => a.ttype = t1 ∧ b.ttype = t2
  | _ => false

def TP.matchesCtxAndLabel (tp : TP) (t : TokType) (ctx : Nat) : Bool :=
  match tp.toks with
  | tok :: _ => tok.ttype = t ∧ tok.contextId = some ctx
  | [] => false

/-- The decoded identifier name of the current token (its raw text). -/
def TP.identifierName (tp : TP) : String :=
  match tp.toks with
  | tok :: _ => tok.raw
  | [] => ""

def TP.copyToken (tp : TP) : TP :=
  match tp.toks with
  | tok :: rest => ⟨tp.past + 1, rest, tp.out ++ [tok.pre ++ tok.raw]⟩
  | [] => tp

def TP.replaceToken (tp : TP) (s : String) : TP :=
  match tp.toks with
  | tok :: rest => ⟨tp.past + 1, rest, tp.out ++ [tok.pre ++ s]⟩
  | [] => tp

def TP.appendCode (tp : TP) (s : String) : TP :=
  { tp with out := tp.out ++ [s] }

def TP.removeToken (tp : TP) : TP :=
  match tp.toks with
  | tok :: rest => ⟨tp.past + 1, rest, tp.out ++ [tok.pre]⟩
  | [] => tp

def TP.removeInitialToken (tp : TP) : TP :=
  match tp.toks with
  | _ :: rest => ⟨tp.past + 1, rest, tp.out⟩
  | [] => tp

/-- Operation `copyExpectedToken`: asserts the token type then copies (a mismatch is
a fatal error, modelled as `none`). -/
def TP.copyExpectedToken (tp : TP) (t : TokType) : Option TP :=
  if tp.matches1 t then some tp.copyToken else none

/-! ## C1: HTML character reference decoding (`processEntity`)

Embedding of `processEntity` and its caller `formatJSXTextLiteral` from the
JSXTransformer portion of src/src/register.ts (lines 345-378 and 255-291).
JavaScript strings are lists of characters; `String.fromCodePoint` is
modelled on Unicode scalar values (for surrogate or out-of-range code
points JavaScript would throw or produce lone surrogates, which no claim
exercises). -/

/-- Modelled from the spec: the fixed named-entity table `XHTMLEntities`
(sucrase-babylon/plugins/jsx/xhtml.ts, not in the excerpt).  Representative
entries, including every entity named by the spec; all values are
non-empty single-character strings, as in the real table. -/
def xhtmlEntities : List (String × String) :=
  [("amp", "&"), ("lt", "<"), ("gt", ">"), ("quot", "\""),
   ("apos", "\x27"), ("nbsp", " "), ("copy", "©")]

def lookupEntity (s : String) : Option String := xhtmlEntities.lookup s

/-- Test `/^[\da-fA-F]+$/` applied to one character. -/
def isHexDigit (c : Char) : Bool :=
  c.isDigit || ('a' ≤ c && c ≤ 'f') || ('A' ≤ c && c ≤ 'F')

def hexDigitVal (c : Char) : Nat :=
  if c.isDigit then c.toNat - '0'.toNat
  else if 'a' ≤ c && c ≤ 'f' then c.toNat - 'a'.toNat + 10
  else c.toNat - 'A'.toNat + 10

/-- Value of `parseInt(str, 10)` on an all-digit string. -/
def decodeDec (s : List Char) : Nat :=
  s.foldl (fun a c => a * 10 + (c.toNat - '0'.toNat)) 0

/-- Value of `parseInt(str, 16)` on an all-hex-digit string. -/
def decodeHex (s : List Char) : Nat :=
  s.foldl (fun a c => a * 16 + hexDigitVal c) 0

/-- Model of `String.fromCodePoint` on a Unicode scalar value. -/
def fromCodePoint (n : Nat) : String := String.singleton (Char.ofNat n)

/-- The entity-resolution step of `processEntity` once a `;` is found:
`&#NN;` decimal, `&#xHH;` hexadecimal, otherwise the named-entity table.
`none` is JavaScript's `undefined` entity. -/
def resolveEntity (str : String) : Option String :=
  match str.data with
  | '#' :: 'x' :: rest =>
    if rest ≠ [] && rest.all isHexDigit then some (fromCodePoint (decodeHex rest))
    else none
  | '#' :: rest =>
    if rest ≠ [] && rest.all Char.isDigit then some (fromCodePoint (decodeDec rest))
    else none
  | _ => lookupEntity str

/-- The scan loop of `processEntity`: `budget` is the remaining character
budget (10 minus the source's `count`); `i` is the scan position; `str`
accumulates the scanned characters.  Returns the resolved entity (or
`none`) and the position after the scan. -/
def processEntityLoop (text : List Char) : Nat → Nat → String → Option String × Nat
  | i, 0, _ => (none, i)
  | i, budget + 1, str =>
    match text.get? i with
    | none => (none, i)
    | some ch =>
      if ch = ';' then (resolveEntity str, i + 1)
      else processEntityLoop text (i + 1) budget (str.push ch)

/-- Embedding of `processEntity` (src/src/register.ts lines 345-378):
scan at most 10 characters from `indexAfterAmpersand` for a `;`; on any
failure (`!entity`) return a literal `&` with `newI` equal to
`indexAfterAmpersand` itself. -/
def processEntity (text : List Char) (indexAfterAmpersand : Nat) : String × Nat :=
  match processEntityLoop text indexAfterAmpersand 10 "" with
  | (none, _) => ("&", indexAfterAmpersand)
  | (some e, i) => if e = "" then ("&", indexAfterAmpersand) else (e, i)

theorem processEntityLoop_le (text : List Char) :
    ∀ budget i str, i ≤ (processEntityLoop text i budget str).2 ∧
      (processEntityLoop text i budget str).2 ≤ i + budget := by
  intro budget
  induction budget with
  | zero => intro i str; simp [processEntityLoop]
  | succ b ih =>
    intro i str
    unfold processEntityLoop
    cases hg : text.get? i with
    | none => simp
    | some ch =>
      by_cases hc : ch = ';'
      · simp [hc]
      · simp only [hc, ite_false]
        obtain ⟨h1, h2⟩ := ih (i + 1) (str.push ch)
        exact ⟨by omega, by omega⟩

theorem processEntityLoop_some (text : List Char) :
    ∀ budget i str e n, processEntityLoop text i budget str = (some e, n) →
      i < n ∧ n ≤ i + budget := by
  intro budget
  induction budget with
  | zero => intro i str e n h; simp [processEntityLoop] at h
  | succ b ih =>
    intro i str e n h
    unfold processEntityLoop at h
    cases hg : text.get? i with
    | none => rw [hg] at h; simp at h
    | some ch =>
      rw [hg] at h
      dsimp only at h
      by_cases hc : ch = ';'
      · rw [if_pos hc] at h
        have h2 : i + 1 = n := congrArg Prod.snd h
        omega
      · rw [if_neg hc] at h
        obtain ⟨h1, h2⟩ := ih (i + 1) (str.push ch) e n h
        exact ⟨by omega, by omega⟩

theorem processEntityLoop_take (text : List Char) :
    ∀ budget i str,
      processEntityLoop (text.take (i + budget)) i budget str =
        processEntityLoop text i budget str := by
  intro budget
  induction budget with
  | zero => intro i str; simp [processEntityLoop]
  | succ b ih =>
    intro i str
    unfold processEntityLoop
    have hget : (text.take (i + (b + 1))).get? i = text.get? i := by
      apply List.get?_take
      omega
    rw [hget]
    cases text.get? i with
    | none => rfl
    | some ch =>
      by_cases hc : ch = ';'
      · simp [hc]
      · simp only [hc, ite_false]
        have hib : i + (b + 1) = (i + 1) + b := by omega
        rw [hib, ih (i + 1) (str.push ch)]

/-- One character of `JSON.stringify` string escaping. -/
def jsonEscapeChar (c : Char) : String :=
  if c = '"' then "\\\""
  else if c = '\\' then "\\\\"
  else if c = '\x08' then "\\b"
  else if c = '\x0c' then "\\f"
  else if c = '\n' then "\\n"
  else if c = '\r' then "\\r"
  else if c = '\t' then "\\t"
  else if c.toNat < 32 then
    "\\u" ++ String.mk
      [Char.ofNat (48 + c.toNat / 4096 % 16), Char.ofNat (48 + c.toNat / 256 % 16),
       Char.ofNat (48 + c.toNat / 16 % 16),
       if c.toNat % 16 < 10 then Char.ofNat (48 + c.toNat % 16)
       else Char.ofNat (87 + c.toNat % 16)]
  else String.singleton c

/-- Model of `JSON.stringify` applied to a string value. -/
def jsonStringify (s : String) : String :=
  "\"" ++ String.join (s.data.map jsonEscapeChar) ++ "\""

/-- The character loop of `formatJSXTextLiteral` (src/src/register.ts lines
255-291), with the source's mutable locals made explicit: `result`,
`whitespace`, `isInInitialLineWhitespace` (`iilw`), `seenNonWhitespace`
(`snw`).  The loop index strictly increases each iteration (entity scanning
always resumes at or after `i + 1`), so fuel `text.length + 1` always
suffices; the fuel-exhausted arm replays the after-loop finalization and is
unreachable from `formatJSXTextLiteral`. -/
def fjtlLoop (text : List Char) : Nat → Nat → String → String → Bool → Bool → String
  | 0, _, result, whitespace, iilw, _ =>
    if iilw then result else result ++ whitespace
  | fuel + 1, i, result, whitespace, iilw, snw =>
    match text.get? i with
    | none => if iilw then result else result ++ whitespace
    | some c =>
      if c = ' ' ∨ c = '\t' ∨ c = '\r' then
        fjtlLoop text fuel (i + 1) result
          (if iilw then whitespace else whitespace.push c) iilw snw
      else if c = '\n' then
        fjtlLoop text fuel (i + 1) result "" true snw
      else
        let result1 := if snw && iilw then result ++ " " else result
        let result2 := result1 ++ whitespace
        if c = '&' then
          let en := processEntity text (i + 1)
          fjtlLoop text fuel en.2 (result2 ++ en.1) "" false true
        else
          fjtlLoop text fuel (i + 1) (result2.push c) "" false true

/-- Embedding of `formatJSXTextLiteral`: trim per-line leading/trailing
whitespace except adjacent to the tags, collapse blank lines, join lines
with a single space, decode entities, then `JSON.stringify` the result. -/
def formatJSXTextLiteral (text : List Char) : String :=
  jsonStringify (fjtlLoop text (text.length + 1) 0 "" "" false false)

/-- C1 counterexample: on the run `&zzz;` the reference does not resolve,
`processEntity` returns a literal `&` with `newI` equal to the index just
after the `&` (1, not 5), and the scanned characters `zzz;` ARE reproduced
in the string literal: the output is `"&zzz;"`, not the `"&"` the claim
predicts when it says the consumed characters are not reproduced. -/
theorem processEntity_unresolved_reproduces_consumed_chars :
    processEntity ("&zzz;".data) 1 = ("&", 1) ∧
    formatJSXTextLiteral ("&zzz;".data) = "\"&zzz;\"" ∧
    formatJSXTextLiteral ("&zzz;".data) ≠ "\"&\"" := by
  refine ⟨rfl, rfl, by decide⟩

/-- C1 (amended): an HTML character reference is decoded by scanning at
most 10 characters past the `&` (the result depends only on
`text.take (i + 10)`); when the reference is not resolved within that
budget the result is a literal `&` with scanning resuming immediately
after the `&` (so the consumed characters are re-scanned and reproduced
normally); when it resolves, the scan consumed between 1 and 10
characters. -/
theorem processEntity_budget_and_fallback (text : List Char) (i : Nat) :
    processEntity (text.take (i + 10)) i = processEntity text i ∧
    ((processEntityLoop text i 10 "").1 = none →
      processEntity text i = ("&", i)) ∧
    (∀ e n, processEntityLoop text i 10 "" = (some e, n) → e ≠ "" →
      processEntity text i = (e, n) ∧ i < n ∧ n ≤ i + 10) := by
  refine ⟨?_, ?_, ?_⟩
  · unfold processEntity
    rw [processEntityLoop_take text 10 i ""]
  · intro h
    unfold processEntity
    cases hr : processEntityLoop text i 10 "" with
    | mk fst snd =>
      rw [hr] at h
      simp at h
      rw [h]
  · intro e n h he
    obtain ⟨h1, h2⟩ := processEntityLoop_some text 10 i "" e n h
    refine ⟨?_, h1, h2⟩
    unfold processEntity
    rw [h]
    dsimp only
    rw [if_neg he]

/-- Witness for C1's amended theorem at the concrete run `&zzz;`:
the scan does not resolve, and `processEntity` resumes at index 1. -/
theorem processEntity_budget_and_fallback_witness :
    (processEntityLoop ("&zzz;".data) 1 10 "").1 = none ∧
    processEntity ("&zzz;".data) 1 = ("&", 1) :=
  ⟨by decide, (processEntity_budget_and_fallback ("&zzz;".data) 1).2.1 (by decide)⟩

/-- Sanity: the decode forms named by the spec: `&amp;` → `&`,
`&#65;` → `A`, `&#x41;` → `A`. -/
theorem processEntity_decode_forms :
    processEntity ("&amp;".data) 1 = ("&", 5) ∧
    processEntity ("&#65;".data) 1 = ("A", 5) ∧
    processEntity ("&#x41;".data) 1 = ("A", 6) ∧
    formatJSXTextLiteral ("a&amp;b".data) = "\"a&b\"" := by
  refine ⟨rfl, rfl, rfl, rfl⟩

/-! ## C7: the replacement filler (`formatJSXTextReplacement`)

Embedding of `formatJSXTextReplacement` (src/src/register.ts lines
298-310) and its caller `processChildTextElement` (lines 204-214). -/

/-- One step of the counting loop: `\n` increments the newline count and
resets the space count; a space increments the space count. -/
def replState (acc : Nat × Nat) (c : Char) : Nat × Nat :=
  if c = '\n' then (acc.1 + 1, 0)
  else if c = ' ' then (acc.1, acc.2 + 1)
  else acc

/-- Embedding of `formatJSXTextReplacement`: `numNewlines` newlines
followed by `numSpaces` spaces. -/
def formatJSXTextReplacement (text : List Char) : String :=
  let s := text.foldl replState (0, 0)
  String.mk (List.replicate s.1 '\n' ++ List.replicate s.2 ' ')

/-- Count of spaces occurring after the last newline of the run (all
spaces when the run has no newline). -/
def spacesSinceLastNewline (l : List Char) : Nat :=
  (l.reverse.takeWhile (fun c => c ≠ '\n')).count ' '

/-- Count of the run's trailing spaces (the claim's notion). -/
def trailingSpaceCount (l : List Char) : Nat :=
  (l.reverse.takeWhile (fun c => c = ' ')).length

theorem takeWhile_append_stop {p : Char → Bool} (l l2 : List Char)
    (x : Char) (hx : x ∈ l) (hpx : ¬ p x) :
    (l ++ l2).takeWhile p = l.takeWhile p := by
  induction l with
  | nil => cases hx
  | cons a l ih =>
    by_cases ha : p a
    · simp only [List.cons_append, List.takeWhile_cons, ha]
      rcases List.mem_cons.mp hx with rfl | hx2
      · exact absurd ha hpx
      · rw [ih hx2]
    · simp only [List.cons_append, List.takeWhile_cons]
      simp [ha]

theorem spacesSinceLastNewline_no_nl (l : List Char) (h : '\n' ∉ l) :
    spacesSinceLastNewline l = l.count ' ' := by
  unfold spacesSinceLastNewline
  rw [List.takeWhile_eq_self_iff.mpr, List.count_reverse]
  intro x hx
  simp only [decide_eq_true_eq, ne_eq]
  intro hxe
  exact h (by rw [← hxe]; exact (List.mem_reverse).mp hx)

theorem spacesSinceLastNewline_cons_mem (c : Char) (l : List Char)
    (h : '\n' ∈ l) :
    spacesSinceLastNewline (c :: l) = spacesSinceLastNewline l := by
  unfold spacesSinceLastNewline
  have hrev : (c :: l).reverse = l.reverse ++ [c] := by simp
  rw [hrev, takeWhile_append_stop _ _ '\n' (List.mem_reverse.mpr h) (by simp)]

theorem spacesSinceLastNewline_cons_nl (l : List Char) (h : '\n' ∉ l) :
    spacesSinceLastNewline ('\n' :: l) = l.count ' ' := by
  unfold spacesSinceLastNewline
  have hrev : ('\n' :: l).reverse = l.reverse ++ ['\n'] := by simp
  rw [hrev, List.takeWhile_append_of_pos, List.takeWhile_cons]
  · simp [List.count_reverse]
  · intro x hx
    simp only [decide_eq_true_eq, ne_eq]
    intro hxe
    exact h (by rw [← hxe]; exact (List.mem_reverse).mp hx)

theorem foldl_replState (text : List Char) : ∀ a b : Nat,
    text.foldl replState (a, b) =
      (a + text.count '\n',
       if '\n' ∈ text then spacesSinceLastNewline text
       else b + text.count ' ') := by
  induction text with
  | nil => intro a b; simp [spacesSinceLastNewline]
  | cons c rest ih =>
    intro a b
    rw [List.foldl_cons]
    by_cases hnl : c = '\n'
    · subst hnl
      rw [show replState (a, b) '\n' = (a + 1, 0) from rfl, ih (a + 1) 0]
      by_cases hmem : '\n' ∈ rest
      · have h1 : spacesSinceLastNewline ('\n' :: rest) =
            spacesSinceLastNewline rest := spacesSinceLastNewline_cons_mem _ _ hmem
        simp [List.count_cons, hmem, h1]
        omega
      · have h1 : spacesSinceLastNewline ('\n' :: rest) = rest.count ' ' :=
          spacesSinceLastNewline_cons_nl _ hmem
        simp [List.count_cons, hmem, h1]
        omega
    · by_cases hsp : c = ' '
      · subst hsp
        rw [show replState (a, b) ' ' = (a, b + 1) from rfl, ih a (b + 1)]
        by_cases hmem : '\n' ∈ rest
        · have hmem2 : '\n' ∈ (' ' :: rest) := List.mem_cons_of_mem _ hmem
          have h1 : spacesSinceLastNewline (' ' :: rest) =
              spacesSinceLastNewline rest := spacesSinceLastNewline_cons_mem _ _ hmem
          simp [List.count_cons, hmem, hmem2, h1]
        · have hmem2 : '\n' ∉ (' ' :: rest) := by
            simp [hmem]
          simp [List.count_cons, hmem, hmem2]
          omega
      · rw [show replState (a, b) c = (a, b) from by simp [replState, hnl, hsp], ih a b]
        by_cases hmem : '\n' ∈ rest
        · have hmem2 : '\n' ∈ (c :: rest) := List.mem_cons_of_mem _ hmem
          have h1 : spacesSinceLastNewline (c :: rest) =
              spacesSinceLastNewline rest := spacesSinceLastNewline_cons_mem _ _ hmem
          simp [List.count_cons, hmem, hmem2, h1, hnl, hsp]
        · have hne1 : ¬ '\n' = c := fun hh => hnl hh.symm
          have hne2 : ¬ ' ' = c := fun hh => hsp hh.symm
          have hmem2 : '\n' ∉ (c :: rest) := by simp [hmem, hne1]
          simp [List.count_cons, hmem, hmem2, hne1, hne2]

theorem formatJSXTextReplacement_eq (text : List Char) :
    formatJSXTextReplacement text =
      String.mk (List.replicate (text.count '\n') '\n' ++
                 List.replicate (spacesSinceLastNewline text) ' ') := by
  unfold formatJSXTextReplacement
  rw [foldl_replState text 0 0]
  by_cases hmem : '\n' ∈ text
  · simp [hmem]
  · simp [hmem, spacesSinceLastNewline_no_nl text hmem]

/-- Embedding of `processChildTextElement`: the token's source text is
normalized into a string literal and a replacement filler; an empty
literal leaves only the filler, otherwise the token is replaced by
`, <literal><filler>`. -/
def processChildTextElement (tp : TP) : TP :=
  match tp.toks with
  | tok :: _ =>
    let valueCode := tok.raw.data
    let replacementCode := formatJSXTextReplacement valueCode
    let literalCode := formatJSXTextLiteral valueCode
    if literalCode = "\"\"" then tp.replaceToken replacementCode
    else tp.replaceToken (", " ++ literalCode ++ replacementCode)
  | [] => tp

/-- C7 counterexample: the run `" a"` (one leading space, no trailing
space) yields the filler `" "` — one space — although the run has zero
trailing spaces, refuting the claim that the filler ends with exactly the
count of the run's trailing spaces.  The source counts the spaces after
the last newline, not the trailing spaces. -/
theorem formatJSXTextReplacement_not_trailing_spaces :
    formatJSXTextReplacement (" a".data) = " " ∧
    trailingSpaceCount (" a".data) = 0 ∧
    formatJSXTextReplacement (" a".data) ≠
      String.mk (List.replicate ((" a".data).count '\n') '\n' ++
                 List.replicate (trailingSpaceCount (" a".data)) ' ') := by
  refine ⟨rfl, rfl, by decide⟩

/-- C7 (amended): for every JSX text run, the transform replaces the text
token by the string literal immediately followed by a replacement filler
consisting of exactly as many newline characters as the run contains,
followed by exactly as many spaces as occur in the run after its last
newline (all of the run's spaces when it has no newline); an empty
literal contributes the filler alone, with no argument text. -/
theorem processChildTextElement_emits_literal_then_filler
    (tp : TP) (tok : Tok) (rest : List Tok) (h : tp.toks = tok :: rest) :
    formatJSXTextReplacement tok.raw.data =
      String.mk (List.replicate (tok.raw.data.count '\n') '\n' ++
                 List.replicate (spacesSinceLastNewline tok.raw.data) ' ') ∧
    (processChildTextElement tp).out = tp.out ++
      [tok.pre ++
        (if formatJSXTextLiteral tok.raw.data = "\"\"" then
          formatJSXTextReplacement tok.raw.data
        else
          ", " ++ formatJSXTextLiteral tok.raw.data ++
            formatJSXTextReplacement tok.raw.data)] ∧
    (processChildTextElement tp).toks = rest := by
  refine ⟨formatJSXTextReplacement_eq _, ?_, ?_⟩
  · unfold processChildTextElement
    rw [h]
    dsimp only
    by_cases hlit : formatJSXTextLiteral tok.raw.data = "\"\""
    · rw [if_pos hlit, if_pos hlit]
      unfold TP.replaceToken
      rw [h]
    · rw [if_neg hlit, if_neg hlit]
      unfold TP.replaceToken
      rw [h]
  · unfold processChildTextElement
    rw [h]
    dsimp only
    by_cases hlit : formatJSXTextLiteral tok.raw.data = "\"\""
    · rw [if_pos hlit]
      unfold TP.replaceToken
      rw [h]
    · rw [if_neg hlit]
      unfold TP.replaceToken
      rw [h]

/-- Witness for C7's amended theorem at the run `"hi \n  there "`:
2 newlines? no — one newline; filler is one newline then one trailing
space region.  Concretely the emitted fragment is the literal `"hi there"`
followed by `"\n "`. -/
theorem processChildTextElement_emits_literal_then_filler_witness :
    (processChildTextElement
        ⟨0, [⟨TokType.jsxText, "", "hi \n there ", none, false⟩], []⟩).out =
      [(("" : String) ++
        (", " ++ formatJSXTextLiteral ("hi \n there ".data) ++
          formatJSXTextReplacement ("hi \n there ".data)))] ∧
    formatJSXTextLiteral ("hi \n there ".data) = "\"hi there \"" ∧
    formatJSXTextReplacement ("hi \n there ".data) = "\n  " :=
  ⟨by
    have h := processChildTextElement_emits_literal_then_filler
      ⟨0, [⟨TokType.jsxText, "", "hi \n there ", none, false⟩], []⟩
      ⟨TokType.jsxText, "", "hi \n there ", none, false⟩ [] rfl
    rw [h.2.1]
    simp only [List.nil_append]
    rw [if_neg (by decide)],
   by decide, by decide⟩

/-! ## C8: binding atoms (`parseBindingAtom`)

Embedding of `parseBindingAtom` (src/sucrase-babylon/parser/lval.ts lines
28-60) over an explicit parser state.  The state holds the current token's
type (`state.type`), the types still to be scanned, and the produced
annotated tokens (`state.tokens`).  The collaborators that are not in the
excerpt are abstracted: `parseObj` and `parseBindingList`'s continuation
are oracle parameters, and `parseIdentifier` is modelled from the spec. -/

/-- Identifier roles (spec section 3): declaration kind or plain access. -/
inductive IdentifierRole where
  | Access
  | BlockScopedDeclaration
  | FunctionScopedDeclaration
deriving DecidableEq

/-- A token produced by the parser, with its role annotation. -/
structure PTok where
  ttype : TokType
  identifierRole : Option IdentifierRole := none
deriving DecidableEq

/-- Parser scan state: current token type, upcoming token types, produced
tokens. -/
structure PState where
  type : TokType
  upcoming : List TokType
  toks : List PTok
deriving DecidableEq

/-- Modelled from the spec: the tokenizer's `next()` (not in the excerpt)
finishes the current token — appending it to the produced token list —
and reads the next token. -/
def pnext (st : PState) : PState :=
  { type := st.upcoming.headD TokType.eof,
    upcoming := st.upcoming.tail,
    toks := st.toks ++ [{ ttype := st.type }] }

/-- Modelled from the spec: `parseIdentifier`
(src/sucrase-babylon/parser/expression.ts, not in the excerpt) consumes
the current identifier token. -/
def parseIdentifier (st : PState) : PState := pnext st

/-- Embedding of `parseBindingIdentifier` (lval.ts lines 23-25). -/
def parseBindingIdentifier (st : PState) : PState := parseIdentifier st

/-- Assignment `state.tokens[state.tokens.length - 1].identifierRole = r`. -/
def setLastRole (st : PState) (r : IdentifierRole) : PState :=
  { st with
    toks := st.toks.dropLast ++
      (match st.toks.getLast? with
       | some t => [{ t with identifierRole := some r }]
       | none => []) }

/-- Embedding of `parseBindingAtom` (lval.ts lines 28-60).  `parseObjO`
abstracts `parseObj` (expression.ts, not in the excerpt) and
`parseBindingListO` abstracts the `parseBindingList` continuation after
the opening bracket is consumed.  The `this` case's type-context marking
(`runInTypeContext`) does not affect the produced token list's shape and
is omitted.  `Except.error` is the thrown syntax error (`unexpected()`). -/
def parseBindingAtom (parseObjO parseBindingListO : PState → Except Unit PState)
    (isBlockScope : Bool) (st : PState) : Except Unit PState :=
  match st.type with
  | TokType._this => Except.ok (pnext st)
  | TokType._yield =>
    Except.ok (setLastRole (parseBindingIdentifier { st with type := TokType.name })
      (if isBlockScope then IdentifierRole.BlockScopedDeclaration
       else IdentifierRole.FunctionScopedDeclaration))
  | TokType.name =>
    Except.ok (setLastRole (parseBindingIdentifier { st with type := TokType.name })
      (if isBlockScope then IdentifierRole.BlockScopedDeclaration
       else IdentifierRole.FunctionScopedDeclaration))
  | TokType.bracketL => parseBindingListO (pnext st)
  | TokType.braceL => parseObjO st
  | _ => Except.error ()

/-- C8: when the current token is an identifier (or `yield`), the
identifier token just produced is the last produced token, a `name` token
tagged `BlockScopedDeclaration` when `isBlockScope` is true and
`FunctionScopedDeclaration` when it is false; and when the current token
is none of `this`, `yield`, an identifier, `[`, or `{`, the call raises a
syntax error and produces no binding (the state is discarded). -/
theorem parseBindingAtom_tags_roles_and_rejects
    (parseObjO parseBindingListO : PState → Except Unit PState)
    (isBlockScope : Bool) (st : PState) :
    ((st.type = TokType.name ∨ st.type = TokType._yield) →
      parseBindingAtom parseObjO parseBindingListO isBlockScope st =
        Except.ok
          { type := st.upcoming.headD TokType.eof,
            upcoming := st.upcoming.tail,
            toks := st.toks ++
              [{ ttype := TokType.name,
                 identifierRole := some
                   (if isBlockScope then IdentifierRole.BlockScopedDeclaration
                    else IdentifierRole.FunctionScopedDeclaration) }] }) ∧
    (st.type ≠ TokType._this → st.type ≠ TokType._yield →
      st.type ≠ TokType.name → st.type ≠ TokType.bracketL →
      st.type ≠ TokType.braceL →
      parseBindingAtom parseObjO parseBindingListO isBlockScope st =
        Except.error ()) := by
  constructor
  · intro hty
    have hbody :
        setLastRole (parseBindingIdentifier { st with type := TokType.name })
          (if isBlockScope then IdentifierRole.BlockScopedDeclaration
           else IdentifierRole.FunctionScopedDeclaration) =
        { type := st.upcoming.headD TokType.eof,
          upcoming := st.upcoming.tail,
          toks := st.toks ++
            [{ ttype := TokType.name,
               identifierRole := some
                 (if isBlockScope then IdentifierRole.BlockScopedDeclaration
                  else IdentifierRole.FunctionScopedDeclaration) }] } := by
      unfold setLastRole parseBindingIdentifier parseIdentifier pnext
      simp
    rcases hty with h | h <;>
      · unfold parseBindingAtom
        rw [h, hbody]
  · intro h1 h2 h3 h4 h5
    unfold parseBindingAtom
    cases hty : st.type <;> simp_all

/-- Witness for C8: a block-scoped identifier binding is tagged
`BlockScopedDeclaration`, and a `+` token (here `other`) is rejected. -/
theorem parseBindingAtom_tags_roles_and_rejects_witness :
    parseBindingAtom (fun _ => Except.error ()) (fun _ => Except.error ())
        true ⟨TokType.name, [TokType.comma], []⟩ =
      Except.ok ⟨TokType.comma, [],
        [⟨TokType.name, some IdentifierRole.BlockScopedDeclaration⟩]⟩ ∧
    parseBindingAtom (fun _ => Except.error ()) (fun _ => Except.error ())
        true ⟨TokType.other, [], []⟩ = Except.error () :=
  ⟨by
    have h := (parseBindingAtom_tags_roles_and_rejects
      (fun _ => Except.error ()) (fun _ => Except.error ())
      true ⟨TokType.name, [TokType.comma], []⟩).1 (Or.inl rfl)
    simpa using h,
   (parseBindingAtom_tags_roles_and_rejects
      (fun _ => Except.error ()) (fun _ => Except.error ())
      true ⟨TokType.other, [], []⟩).2
     (by decide) (by decide) (by decide) (by decide) (by decide)⟩

/-! ## C9 and C3: transformer registration and output assembly
(`RootTransformer` constructor and `transform`)

Embedding of the `RootTransformer` constructor (lines 21-59) and of
`transform` (lines 61-86).  The transformer instances are abstracted to
tags; each transformer's injected prefix/suffix text (`getPrefixCode` /
`getSuffixCode`) and the finished token stream (`tokens.finish()`, which
per spec section 4.2 is the concatenation of the emitted fragments and is
stable across the two calls the source makes) are parameters. -/

/-- The enabled-transform names (`Transform` in src/src/index.ts). -/
inductive Transform where
  | imports
  | flow
  | typescript
  | jsx
  | addModuleExports
deriving DecidableEq

/-- Tags for the transformer instances the constructor can register. -/
inductive TK where
  | numericSeparator
  | optionalCatchBinding
  | jsxT
  | reactDisplayName
  | importT
  | flowT
  | typescriptT
deriving DecidableEq

/-- The configuration-error message of the constructor. -/
def tsNotSupportedMsg : String :=
  "The TypeScript transform without the import transform is not yet supported."

/-- Embedding of the `RootTransformer` constructor (lines 21-59): build
the transformer list in registration order, rejecting `typescript`
without `imports`. -/
def buildTransformers (ts : List Transform) : Except String (List TK) :=
  let l0 := [TK.numericSeparator, TK.optionalCatchBinding]
  let l1 := if Transform.jsx ∈ ts then l0 ++ [TK.jsxT, TK.reactDisplayName] else l0
  let l2 := if Transform.imports ∈ ts then l1 ++ [TK.importT] else l1
  let l3 := if Transform.flow ∈ ts then l2 ++ [TK.flowT] else l2
  if Transform.typescript ∈ ts then
    if Transform.imports ∈ ts then Except.ok (l3 ++ [TK.typescriptT])
    else Except.error tsNotSupportedMsg
  else Except.ok l3

/-- Text of the `"use strict";` prologue. -/
def useStrictText : List Char := "\"use strict\";".data

/-- Declaration text ` var <v>;` for one orchestrator-generated variable. -/
def varDeclText (v : List Char) : List Char := " var ".data ++ v ++ [';']

/-- Model of `code.indexOf("\n")`. -/
def idxOfNewline : List Char → Option Nat
  | [] => none
  | c :: rest =>
    if c = '\n' then some 0 else (idxOfNewline rest).map (fun k => k + 1)

/-- Embedding of `RootTransformer.transform` (lines 61-86) after the
balanced walk: assemble prefix (`"use strict"` when an ImportTransformer
is registered, then transformer prefixes in registration order, then
generated-variable declarations), the finished token stream, and the
transformer suffixes; a shebang line keeps its position with the prefix
spliced in immediately after it. -/
def transformOutput (l : List TK) (pf sf : TK → List Char)
    (gv : List (List Char)) (finished : List Char) : List Char :=
  let shouldAddUseStrict := l.any (fun t => t = TK.importT)
  let preCode := (if shouldAddUseStrict then useStrictText else []) ++
    (l.map pf).flatten ++ (gv.map varDeclText).flatten
  let sufCode := (l.map sf).flatten
  if finished.take 2 = ['#', '!'] then
    match idxOfNewline finished with
    | some k => finished.take (k + 1) ++ preCode ++ finished.drop (k + 1) ++ sufCode
    | none => (finished ++ ['\n']) ++ preCode ++ sufCode
  else preCode ++ finished ++ sufCode

/-- The full pipeline: constructing the transformer list (which validates
the configuration) and then assembling the output. -/
def runTransform (ts : List Transform) (pf sf : TK → List Char)
    (gv : List (List Char)) (finished : List Char) : Except String (List Char) :=
  (buildTransformers ts).map (fun l => transformOutput l pf sf gv finished)

/-- C9: a configuration enabling `typescript` without `imports` is
rejected with a configuration error before any output is produced; every
other combination of the enumerated transforms is accepted and produces
output. -/
theorem runTransform_validates_configuration (ts : List Transform)
    (pf sf : TK → List Char) (gv : List (List Char)) (fin : List Char) :
    (Transform.typescript ∈ ts ∧ Transform.imports ∉ ts →
      runTransform ts pf sf gv fin = Except.error tsNotSupportedMsg) ∧
    (¬ (Transform.typescript ∈ ts ∧ Transform.imports ∉ ts) →
      ∃ out, runTransform ts pf sf gv fin = Except.ok out) := by
  constructor
  · rintro ⟨hts, him⟩
    unfold runTransform buildTransformers
    rw [if_pos hts, if_neg him]
    rfl
  · intro h
    unfold runTransform buildTransformers
    by_cases hts : Transform.typescript ∈ ts
    · have him : Transform.imports ∈ ts := by
        by_contra him
        exact h ⟨hts, him⟩
      rw [if_pos hts, if_pos him]
      exact ⟨_, rfl⟩
    · rw [if_neg hts]
      exact ⟨_, rfl⟩

/-- Witness for C9: `["typescript"]` alone is rejected;
`["typescript", "imports"]` is accepted. -/
theorem runTransform_validates_configuration_witness :
    runTransform [Transform.typescript] (fun _ => []) (fun _ => []) [] [] =
      Except.error tsNotSupportedMsg ∧
    ∃ out, runTransform [Transform.typescript, Transform.imports]
      (fun _ => []) (fun _ => []) [] [] = Except.ok out :=
  ⟨(runTransform_validates_configuration [Transform.typescript]
      (fun _ => []) (fun _ => []) [] []).1 ⟨by decide, by decide⟩,
   (runTransform_validates_configuration
      [Transform.typescript, Transform.imports]
      (fun _ => []) (fun _ => []) [] []).2 (by decide)⟩

theorem buildTransformers_importT (ts : List Transform) (l : List TK)
    (h : buildTransformers ts = Except.ok l) :
    (l.any (fun t => t = TK.importT) = true ↔ Transform.imports ∈ ts) := by
  unfold buildTransformers at h
  by_cases hts : Transform.typescript ∈ ts
  · by_cases him : Transform.imports ∈ ts
    · rw [if_pos hts, if_pos him] at h
      obtain rfl := (Except.ok.injEq _ _).mp h.symm
      by_cases hjsx : Transform.jsx ∈ ts <;>
        by_cases hflow : Transform.flow ∈ ts <;>
          simp [hjsx, him, hflow]
    · rw [if_pos hts, if_neg him] at h
      simp at h
  · rw [if_neg hts] at h
    obtain rfl := (Except.ok.injEq _ _).mp h.symm
    by_cases hjsx : Transform.jsx ∈ ts <;>
      by_cases him : Transform.imports ∈ ts <;>
        by_cases hflow : Transform.flow ∈ ts <;>
          simp [hjsx, him, hflow]

theorem idxOfNewline_append (line rest : List Char) (h : '\n' ∉ line) :
    idxOfNewline (line ++ '\n' :: rest) = some line.length := by
  induction line with
  | nil => simp [idxOfNewline]
  | cons c cs ih =>
    have hc : ¬ c = '\n' := fun hh => h (hh ▸ List.mem_cons_self c cs)
    have hcs : '\n' ∉ cs := fun hh => h (List.mem_cons_of_mem c hh)
    show idxOfNewline (c :: (cs ++ '\n' :: rest)) = _
    unfold idxOfNewline
    rw [if_neg hc, ih hcs]
    rfl

/-- C3: the compiled output is assembled as: the `"use strict";` prologue
exactly when an import-rewriting transformer is registered (equivalently,
when `imports` is among the enabled transforms), before every other
injected prefix; then each transformer's prefix text in registration
order; then declarations for the orchestrator-generated temporary
variables; then the rewritten token stream; then each transformer's
suffix text in registration order.  When the source begins with a
shebang line, all injected prefix text is placed immediately after that
line instead of at the very start. -/
theorem transform_assembles_output (ts : List Transform) (l : List TK)
    (pf sf : TK → List Char) (gv : List (List Char)) (fin : List Char)
    (h : buildTransformers ts = Except.ok l) :
    (l.any (fun t => t = TK.importT) = true ↔ Transform.imports ∈ ts) ∧
    (fin.take 2 ≠ ['#', '!'] →
      transformOutput l pf sf gv fin =
        (if Transform.imports ∈ ts then useStrictText else []) ++
        (l.map pf).flatten ++ (gv.map varDeclText).flatten ++ fin ++
        (l.map sf).flatten) ∧
    (∀ line rest, fin = line ++ '\n' :: rest → '\n' ∉ line →
      line.take 2 = ['#', '!'] →
      transformOutput l pf sf gv fin =
        line ++ '\n' ::
          ((if Transform.imports ∈ ts then useStrictText else []) ++
           (l.map pf).flatten ++ (gv.map varDeclText).flatten ++ rest ++
           (l.map sf).flatten)) := by
  have himp := buildTransformers_importT ts l h
  have hpre : (if l.any (fun t => t = TK.importT) then useStrictText else []) =
      (if Transform.imports ∈ ts then useStrictText else []) := by
    by_cases him : Transform.imports ∈ ts
    · rw [if_pos (himp.mpr him), if_pos him]
    · rw [if_neg him, if_neg]
      intro hc
      exact him (himp.mp hc)
  refine ⟨himp, ?_, ?_⟩
  · intro hns
    unfold transformOutput
    rw [if_neg hns, hpre]
  · intro line rest hfin hnl hline2
    have hfin2 : fin.take 2 = ['#', '!'] := by
      rw [hfin]
      cases line with
      | nil => simp at hline2
      | cons a l1 =>
        cases l1 with
        | nil => simp at hline2
        | cons b l2 =>
          simp only [List.cons_append, List.take_succ_cons, List.take_zero]
          simpa using hline2
    have hidx : idxOfNewline fin = some line.length := by
      rw [hfin]; exact idxOfNewline_append line rest hnl
    have hassoc : fin = (line ++ ['\n']) ++ rest := by
      rw [hfin]; simp
    have htake : fin.take (line.length + 1) = line ++ ['\n'] := by
      rw [hassoc]
      exact List.take_left' (by simp)
    have hdrop : fin.drop (line.length + 1) = rest := by
      rw [hassoc]
      exact List.drop_left' (by simp)
    unfold transformOutput
    rw [if_pos hfin2, hidx]
    dsimp only
    rw [htake, hdrop, hpre]
    simp [List.append_assoc]

/-- Witness for C3 at a concrete run: one registered transformer list for
`{jsx, imports}`, concrete prefixes/suffixes, one generated variable, and
a shebang source line. -/
theorem transform_assembles_output_witness :
    buildTransformers [Transform.jsx, Transform.imports] =
      Except.ok [TK.numericSeparator, TK.optionalCatchBinding, TK.jsxT,
        TK.reactDisplayName, TK.importT] ∧
    transformOutput
        [TK.numericSeparator, TK.optionalCatchBinding, TK.jsxT,
          TK.reactDisplayName, TK.importT]
        (fun t => if t = TK.jsxT then "P;".data else [])
        (fun t => if t = TK.importT then "S;".data else [])
        ["_v1".data]
        ("#!/usr/bin/env node\nlet x = 1;".data) =
      ("#!/usr/bin/env node\n\"use strict\";P; var _v1;let x = 1;S;".data) := by
  refine ⟨rfl, ?_⟩
  have h := (transform_assembles_output [Transform.jsx, Transform.imports]
    [TK.numericSeparator, TK.optionalCatchBinding, TK.jsxT,
      TK.reactDisplayName, TK.importT]
    (fun t => if t = TK.jsxT then "P;".data else [])
    (fun t => if t = TK.importT then "S;".data else [])
    ["_v1".data]
    ("#!/usr/bin/env node\nlet x = 1;".data) rfl).2.2
    ("#!/usr/bin/env node".data) ("let x = 1;".data) (by decide) (by decide)
    (by decide)
  rw [h]
  decide

/-! ## Per-token dispatch and the class rewrite (C4, C5)

`processToken` (RootTransformer lines 112-124) dispatches a class
construct to `processClass` and offers other tokens to the feature
transformers; the JSX transformer claims `jsxTagStart` tokens.  Both
recursive handlers are abstracted as `oracle`; the other transformers of
the excerpt claim none of the token kinds these claims exercise, so the
default copies the token through.  All loops take explicit fuel. -/

/-- Embedding of `RootTransformer.processToken`: class constructs and JSX
tags go to their handler (`oracle`); otherwise the token is copied
through. -/
def processTokenStep (oracle : TP → Option TP) (tp : TP) : Option TP :=
  match tp.toks with
  | [] => some tp.copyToken
  | t :: _ =>
    if t.ttype = TokType._class ∨ t.ttype = TokType.jsxTagStart then oracle tp
    else some tp.copyToken

/-- A processing function only ever appends to the emitted output. -/
def OutMono (f : TP → Option TP) : Prop :=
  ∀ tp tp', f tp = some tp' → ∃ d, tp'.out = tp.out ++ d

/-- Modelled from the spec (section 3, `ClassInfo`): the derived record of
`util/getClassInfo.ts` (not in the excerpt), exactly as consumed by the
in-excerpt `processClass`/`processClassBody`.  `initStmts` is the
source's `initializerStatements` and `staticSuffixes` its
`staticInitializerSuffixes`; a `FieldRange` is a half-open token-index
range (`stop` is the source's `end`). -/
structure ClassHeaderInfo where
  isExpression : Bool
  hasSuperclass : Bool
  className : String
deriving DecidableEq

structure FieldRange where
  start : Nat
  stop : Nat
deriving DecidableEq

structure ClassInfo where
  headerInfo : ClassHeaderInfo
  constructorInsertPos : Option Nat
  initStmts : List String
  fieldRanges : List FieldRange
  staticSuffixes : List String
deriving DecidableEq

/-- The synthesized-constructor text of `processClassBody` (lines
186-196): with a superclass, forward all arguments via a spread parameter
and call `super` before the initializers; otherwise the initializers
alone. -/
def synthCtorCode (hasSuper : Bool) (argsName : String) (inits : List String) : String :=
  if hasSuper then
    "constructor(..." ++ argsName ++ ") \x7b super(..." ++ argsName ++ "); " ++
      String.intercalate ";" inits ++ "; \x7d"
  else
    "constructor() \x7b " ++ String.intercalate ";" inits ++ "; \x7d"

/-- The inner removal loop of the field-range branch: `removeToken` until
the cursor reaches the end of the range. -/
def removeUpTo : Nat → TP → Nat → Option TP
  | 0, _, _ => none
  | fuel + 1, tp, stop =>
    if tp.past < stop then removeUpTo fuel tp.removeToken stop else some tp

/-- The main loop of `processClassBody` (lines 198-217): until the class
body's closing brace (same `contextId`), delete field ranges, splice the
initializer statements after an existing constructor's opening brace
(`constructorInsertPos`), and process every other token. -/
def classBodyLoop (oracle : TP → Option TP) :
    Nat → TP → Nat → ClassInfo → Nat → Option TP
  | 0, _, _, _, _ => none
  | fuel + 1, tp, ctx, ci, fi =>
    if tp.matchesCtxAndLabel TokType.braceR ctx then some tp
    else
      let fieldHit : Option Nat :=
        match ci.fieldRanges.get? fi with
        | some r => if tp.past = r.start then some r.stop else none
        | none => none
      match fieldHit with
      | some stop =>
        (removeUpTo fuel tp.removeInitialToken stop).bind
          (fun tp2 => classBodyLoop oracle fuel tp2 ctx ci (fi + 1))
      | none =>
        if some tp.past = ci.constructorInsertPos then
          let tp1 := tp.copyToken
          let tp2 :=
            if ci.initStmts ≠ [] then
              tp1.appendCode (";" ++ String.intercalate ";" ci.initStmts ++ ";")
            else tp1
          (processTokenStep oracle tp2).bind
            (fun tp3 => classBodyLoop oracle fuel tp3 ctx ci fi)
        else
          (processTokenStep oracle tp).bind
            (fun tp3 => classBodyLoop oracle fuel tp3 ctx ci fi)

/-- Embedding of `processClassBody` (lines 177-219): read the body's
context id from the opening brace, copy it, synthesize a constructor when
none exists and there are field initializers, run the body loop, and copy
the closing brace. -/
def processClassBody (oracle : TP → Option TP) (fuel : Nat) (tp : TP)
    (ci : ClassInfo) (argsName : String) : Option TP :=
  match tp.toks with
  | [] => none
  | tok :: _ =>
    match tok.contextId with
    | none => none
    | some ctx =>
      (tp.copyExpectedToken TokType.braceL).bind (fun tp1 =>
        let tp2 :=
          if ci.constructorInsertPos = none ∧ ci.initStmts ≠ [] then
            tp1.appendCode (synthCtorCode ci.headerInfo.hasSuperclass argsName ci.initStmts)
          else tp1
        (classBodyLoop oracle fuel tp2 ctx ci 0).bind
          (fun tp3 => tp3.copyExpectedToken TokType.braceR))

/-- The header walk of `processClass` (lines 157-159): process tokens
until the class body's opening brace (matching `contextId`). -/
def headerWalk (oracle : TP → Option TP) : Nat → TP → Nat → Option TP
  | 0, _, _ => none
  | fuel + 1, tp, ctx =>
    if tp.matchesCtxAndLabel TokType.braceL ctx then some tp
    else (processTokenStep oracle tp).bind (fun tp2 => headerWalk oracle fuel tp2 ctx)

/-- Embedding of `processClass` (lines 138-171).  `freshName` is the name
the NameManager mints for `claimFreeName("_class")` and `argsName` the one
for `claimFreeName("args")`; `gvars` is the orchestrator's
`generatedVariables` list, returned updated. -/
def processClass (oracle : TP → Option TP) (fuel : Nat) (tp : TP)
    (ci : ClassInfo) (freshName argsName : String) (gvars : List String) :
    Option (TP × List String) :=
  let className :=
    if ci.headerInfo.isExpression = true ∧ ci.staticSuffixes ≠ [] then freshName
    else ci.headerInfo.className
  let gv2 :=
    if ci.headerInfo.isExpression = true ∧ ci.staticSuffixes ≠ [] then
      gvars ++ [freshName]
    else gvars
  let tp0 :=
    if ci.headerInfo.isExpression = true ∧ ci.staticSuffixes ≠ [] then
      tp.appendCode (" (" ++ freshName ++ " =")
    else tp
  match tp0.toks with
  | [] => none
  | tok :: _ =>
    match tok.contextId with
    | none => none
    | some ctx =>
      (tp0.copyExpectedToken TokType._class).bind (fun tp1 =>
        (headerWalk oracle fuel tp1 ctx).bind (fun tp2 =>
          (processClassBody oracle fuel tp2 ci argsName).bind (fun tp3 =>
            let stmts := ci.staticSuffixes.map (fun suf => className ++ suf)
            let tp4 :=
              if ci.headerInfo.isExpression = true ∧ ci.staticSuffixes ≠ [] then
                tp3.appendCode
                  (", " ++ String.intercalate ", " stmts ++ ", " ++ className ++ ")")
              else if ci.staticSuffixes ≠ [] then
                tp3.appendCode (" " ++ String.intercalate "; " stmts ++ ";")
              else tp3
            some (tp4, gv2))))

theorem outMono_bind {f g : TP → Option TP} (hf : OutMono f) (hg : OutMono g) :
    OutMono (fun tp => (f tp).bind g) := by
  intro tp tp' h
  dsimp only at h
  cases hf' : f tp with
  | none => rw [hf'] at h; exact Option.noConfusion h
  | some tm =>
    rw [hf'] at h
    rw [show (some tm).bind g = g tm from rfl] at h
    obtain ⟨d1, hd1⟩ := hf tp tm hf'
    obtain ⟨d2, hd2⟩ := hg tm tp' h
    exact ⟨d1 ++ d2, by rw [hd2, hd1, List.append_assoc]⟩

theorem copyToken_out (tp : TP) : ∃ d, tp.copyToken.out = tp.out ++ d := by
  unfold TP.copyToken
  cases tp.toks with
  | nil => exact ⟨[], by simp⟩
  | cons t rest => exact ⟨[t.pre ++ t.raw], rfl⟩

theorem replaceToken_out (tp : TP) (s : String) :
    ∃ d, (tp.replaceToken s).out = tp.out ++ d := by
  unfold TP.replaceToken
  cases tp.toks with
  | nil => exact ⟨[], by simp⟩
  | cons t rest => exact ⟨[t.pre ++ s], rfl⟩

theorem removeToken_out (tp : TP) : ∃ d, tp.removeToken.out = tp.out ++ d := by
  unfold TP.removeToken
  cases tp.toks with
  | nil => exact ⟨[], by simp⟩
  | cons t rest => exact ⟨[t.pre], rfl⟩

theorem removeInitialToken_out (tp : TP) :
    ∃ d, tp.removeInitialToken.out = tp.out ++ d := by
  unfold TP.removeInitialToken
  cases tp.toks with
  | nil => exact ⟨[], by simp⟩
  | cons t rest => exact ⟨[], by simp⟩

theorem appendCode_out (tp : TP) (s : String) :
    ∃ d, (tp.appendCode s).out = tp.out ++ d :=
  ⟨[s], rfl⟩

theorem processTokenStep_mono (oracle : TP → Option TP) (h : OutMono oracle) :
    OutMono (processTokenStep oracle) := by
  intro tp tp' hs
  unfold processTokenStep at hs
  cases htoks : tp.toks with
  | nil =>
    rw [htoks] at hs
    obtain rfl := Option.some.inj hs
    exact copyToken_out tp
  | cons t rest =>
    rw [htoks] at hs
    dsimp only at hs
    by_cases hc : t.ttype = TokType._class ∨ t.ttype = TokType.jsxTagStart
    · rw [if_pos hc] at hs
      exact h tp tp' hs
    · rw [if_neg hc] at hs
      obtain rfl := Option.some.inj hs
      exact copyToken_out tp

theorem removeUpTo_mono : ∀ (fuel stop : Nat),
    OutMono (fun tp => removeUpTo fuel tp stop) := by
  intro fuel
  induction fuel with
  | zero => intro stop tp tp' h; simp [removeUpTo] at h
  | succ f ih =>
    intro stop tp tp' h
    unfold removeUpTo at h
    by_cases hlt : tp.past < stop
    · rw [if_pos hlt] at h
      obtain ⟨d1, hd1⟩ := removeToken_out tp
      obtain ⟨d2, hd2⟩ := ih stop tp.removeToken tp' h
      exact ⟨d1 ++ d2, by rw [hd2, hd1, List.append_assoc]⟩
    · rw [if_neg hlt] at h
      obtain rfl := Option.some.inj h
      exact ⟨[], by simp⟩

theorem classBodyLoop_mono (oracle : TP → Option TP) (h : OutMono oracle) :
    ∀ (fuel : Nat) (ctx : Nat) (ci : ClassInfo) (fi : Nat),
      OutMono (fun tp => classBodyLoop oracle fuel tp ctx ci fi) := by
  intro fuel
  induction fuel with
  | zero => intro ctx ci fi tp tp' hs; simp [classBodyLoop] at hs
  | succ f ih =>
    intro ctx ci fi tp tp' hs
    unfold classBodyLoop at hs
    by_cases hend : tp.matchesCtxAndLabel TokType.braceR ctx
    · rw [if_pos hend] at hs
      obtain rfl := Option.some.inj hs
      exact ⟨[], by simp⟩
    · rw [if_neg hend] at hs
      dsimp only at hs
      cases hfh : (match ci.fieldRanges.get? fi with
          | some r => if tp.past = r.start then some r.stop else none
          | none => none : Option Nat) with
      | some stop =>
        rw [hfh] at hs
        dsimp only at hs
        have hbind := outMono_bind
          (f := fun t => removeUpTo f t stop)
          (g := fun t2 => classBodyLoop oracle f t2 ctx ci (fi + 1))
          (removeUpTo_mono f stop) (ih ctx ci (fi + 1))
        obtain ⟨d1, hd1⟩ := removeInitialToken_out tp
        obtain ⟨d2, hd2⟩ := hbind tp.removeInitialToken tp' hs
        exact ⟨d1 ++ d2, by rw [hd2, hd1, List.append_assoc]⟩
      | none =>
        rw [hfh] at hs
        dsimp only at hs
        by_cases hcp : some tp.past = ci.constructorInsertPos
        · rw [if_pos hcp] at hs
          set tp1 := tp.copyToken with htp1
          set tp2 := (if ci.initStmts ≠ [] then
              tp1.appendCode (";" ++ String.intercalate ";" ci.initStmts ++ ";")
            else tp1) with htp2
          have h2 : ∃ d, tp2.out = tp.out ++ d := by
            obtain ⟨d1, hd1⟩ := copyToken_out tp
            rw [htp2]
            by_cases hi : ci.initStmts ≠ []
            · rw [if_pos hi]
              obtain ⟨d2, hd2⟩ := appendCode_out tp1
                (";" ++ String.intercalate ";" ci.initStmts ++ ";")
              exact ⟨d1 ++ d2, by rw [hd2, hd1, List.append_assoc]⟩
            · rw [if_neg hi]
              exact ⟨d1, hd1⟩
          obtain ⟨d1, hd1⟩ := h2
          have hbind := outMono_bind
            (f := processTokenStep oracle)
            (g := fun t3 => classBodyLoop oracle f t3 ctx ci fi)
            (processTokenStep_mono oracle h) (ih ctx ci fi)
          obtain ⟨d2, hd2⟩ := hbind tp2 tp' hs
          exact ⟨d1 ++ d2, by rw [hd2, hd1, List.append_assoc]⟩
        · rw [if_neg hcp] at hs
          have hbind := outMono_bind
            (f := processTokenStep oracle)
            (g := fun t3 => classBodyLoop oracle f t3 ctx ci fi)
            (processTokenStep_mono oracle h) (ih ctx ci fi)
          exact hbind tp tp' hs

theorem copyExpectedToken_mono (t : TokType) :
    OutMono (fun tp => tp.copyExpectedToken t) := by
  intro tp tp' hs
  unfold TP.copyExpectedToken at hs
  dsimp only at hs
  by_cases hm : tp.matches1 t
  · rw [if_pos hm] at hs
    obtain rfl := Option.some.inj hs
    exact copyToken_out tp
  · rw [if_neg hm] at hs
    simp at hs

theorem headerWalk_mono (oracle : TP → Option TP) (h : OutMono oracle) :
    ∀ (fuel ctx : Nat), OutMono (fun tp => headerWalk oracle fuel tp ctx) := by
  intro fuel
  induction fuel with
  | zero => intro ctx tp tp' hs; simp [headerWalk] at hs
  | succ f ih =>
    intro ctx tp tp' hs
    unfold headerWalk at hs
    by_cases hm : tp.matchesCtxAndLabel TokType.braceL ctx
    · rw [if_pos hm] at hs
      obtain rfl := Option.some.inj hs
      exact ⟨[], by simp⟩
    · rw [if_neg hm] at hs
      exact outMono_bind (processTokenStep_mono oracle h) (ih ctx) tp tp' hs

/-- C4: with no explicit constructor (`constructorInsertPos` is the
"synthesize" sentinel) and at least one field-initializer statement, the
rewrite inserts immediately after the class body's opening brace a
synthesized constructor; with a superclass it first forwards all received
arguments to the superclass constructor through a single spread parameter
(`constructor(...args) { super(...args); ... }`) and then runs the
field-initializer statements in order; without a superclass it contains
only the initializer statements. -/
theorem processClassBody_synthesizes_constructor
    (oracle : TP → Option TP) (fuel : Nat) (tp : TP) (ci : ClassInfo)
    (argsName : String) (tp' : TP)
    (hmono : OutMono oracle)
    (hnone : ci.constructorInsertPos = none)
    (hinits : ci.initStmts ≠ [])
    (hres : processClassBody oracle fuel tp ci argsName = some tp') :
    ∃ tok rest d, tp.toks = tok :: rest ∧ tok.ttype = TokType.braceL ∧
      tp'.out = tp.out ++ [tok.pre ++ tok.raw,
        synthCtorCode ci.headerInfo.hasSuperclass argsName ci.initStmts] ++ d ∧
      synthCtorCode ci.headerInfo.hasSuperclass argsName ci.initStmts =
        (if ci.headerInfo.hasSuperclass then
          "constructor(..." ++ argsName ++ ") \x7b super(..." ++ argsName ++
            "); " ++ String.intercalate ";" ci.initStmts ++ "; \x7d"
        else
          "constructor() \x7b " ++ String.intercalate ";" ci.initStmts ++
            "; \x7d") := by
  cases htoks : tp.toks with
  | nil =>
    unfold processClassBody at hres
    rw [htoks] at hres
    exact Option.noConfusion hres
  | cons tok rest =>
    cases hctx : tok.contextId with
    | none =>
      unfold processClassBody at hres
      simp only [htoks, hctx] at hres
      exact Option.noConfusion hres
    | some ctx =>
      by_cases hm : tp.matches1 TokType.braceL
      · have htt : tok.ttype = TokType.braceL := by
          have hm2 := hm
          unfold TP.matches1 at hm2
          rw [htoks] at hm2
          simpa using hm2
        have hce : tp.copyExpectedToken TokType.braceL = some tp.copyToken := by
          unfold TP.copyExpectedToken
          rw [if_pos hm]
        have hcopy : tp.copyToken =
            ⟨tp.past + 1, rest, tp.out ++ [tok.pre ++ tok.raw]⟩ := by
          unfold TP.copyToken
          rw [htoks]
        have key : processClassBody oracle fuel tp ci argsName =
            (classBodyLoop oracle fuel
              (TP.appendCode ⟨tp.past + 1, rest, tp.out ++ [tok.pre ++ tok.raw]⟩
                (synthCtorCode ci.headerInfo.hasSuperclass argsName ci.initStmts))
              ctx ci 0).bind
            (fun tp3 => tp3.copyExpectedToken TokType.braceR) := by
          unfold processClassBody
          simp only [htoks, hctx, hce, Option.some_bind, hcopy]
          rw [if_pos ⟨hnone, hinits⟩]
        rw [key] at hres
        obtain ⟨d, hd⟩ := outMono_bind
          (f := fun t => classBodyLoop oracle fuel t ctx ci 0)
          (g := fun t3 => t3.copyExpectedToken TokType.braceR)
          (classBodyLoop_mono oracle hmono fuel ctx ci 0)
          (copyExpectedToken_mono TokType.braceR) _ tp' hres
        have hout2 : (TP.appendCode ⟨tp.past + 1, rest, tp.out ++ [tok.pre ++ tok.raw]⟩
            (synthCtorCode ci.headerInfo.hasSuperclass argsName ci.initStmts)).out =
            tp.out ++ [tok.pre ++ tok.raw,
              synthCtorCode ci.headerInfo.hasSuperclass argsName ci.initStmts] := by
          unfold TP.appendCode
          simp
        refine ⟨tok, rest, d, rfl, htt, ?_, by unfold synthCtorCode; rfl⟩
        rw [hd, hout2, List.append_assoc]
      · have hce : tp.copyExpectedToken TokType.braceL = none := by
          unfold TP.copyExpectedToken
          rw [if_neg hm]
        have key : processClassBody oracle fuel tp ci argsName = none := by
          unfold processClassBody
          simp only [htoks, hctx, hce, Option.none_bind]
        rw [key] at hres
        exact Option.noConfusion hres

/-- Body tokens of the sample class `{ x = 1; }` (context id 7). -/
def sampleClassToks : List Tok :=
  [⟨TokType.braceL, "", "\x7b", some 7, false⟩,
   ⟨TokType.name, " ", "x", none, false⟩,
   ⟨TokType.eq, " ", "=", none, false⟩,
   ⟨TokType.num, " ", "1", none, false⟩,
   ⟨TokType.semi, "", ";", none, false⟩,
   ⟨TokType.braceR, " ", "\x7d", some 7, false⟩]

/-- ClassInfo of the sample class: superclass, no constructor, one field
initializer, one field range. -/
def sampleClassInfo : ClassInfo :=
  ⟨⟨false, true, "C"⟩, none, ["this.x = 1"], [⟨1, 5⟩], []⟩

/-- Witness for C4 at the sample class: the output starts with the body's
opening brace immediately followed by
`constructor(..._args) { super(..._args); this.x = 1; }`. -/
theorem processClassBody_synthesizes_constructor_witness :
    ∃ tok rest d, (⟨0, sampleClassToks, []⟩ : TP).toks = tok :: rest ∧
      tok.ttype = TokType.braceL ∧
      (⟨6, [],
        ["\x7b", "constructor(..._args) \x7b super(..._args); this.x = 1; \x7d",
         " ", " ", "", " \x7d"]⟩ : TP).out =
        (⟨0, sampleClassToks, []⟩ : TP).out ++
          [tok.pre ++ tok.raw,
           synthCtorCode sampleClassInfo.headerInfo.hasSuperclass "_args"
             sampleClassInfo.initStmts] ++ d ∧
      synthCtorCode sampleClassInfo.headerInfo.hasSuperclass "_args"
          sampleClassInfo.initStmts =
        (if sampleClassInfo.headerInfo.hasSuperclass then
          "constructor(..." ++ "_args" ++ ") \x7b super(..." ++ "_args" ++
            "); " ++ String.intercalate ";" sampleClassInfo.initStmts ++ "; \x7d"
        else
          "constructor() \x7b " ++
            String.intercalate ";" sampleClassInfo.initStmts ++ "; \x7d") :=
  processClassBody_synthesizes_constructor (fun _ => none) 8
    ⟨0, sampleClassToks, []⟩ sampleClassInfo "_args"
    ⟨6, [],
      ["\x7b", "constructor(..._args) \x7b super(..._args); this.x = 1; \x7d",
       " ", " ", "", " \x7d"]⟩
    (fun _ _ hh => Option.noConfusion hh) rfl (by decide) rfl

theorem processClassBody_mono (oracle : TP → Option TP) (h : OutMono oracle)
    (fuel : Nat) (ci : ClassInfo) (argsName : String) :
    OutMono (fun tp => processClassBody oracle fuel tp ci argsName) := by
  intro tp tp' hs
  dsimp only at hs
  unfold processClassBody at hs
  cases htoks : tp.toks with
  | nil => rw [htoks] at hs; exact Option.noConfusion hs
  | cons tok rest =>
    cases hctx : tok.contextId with
    | none =>
      simp only [htoks, hctx] at hs
      exact Option.noConfusion hs
    | some ctx =>
      simp only [htoks, hctx] at hs
      have hg : OutMono (fun tp1 =>
          (classBodyLoop oracle fuel
            (if ci.constructorInsertPos = none ∧ ci.initStmts ≠ [] then
              tp1.appendCode (synthCtorCode ci.headerInfo.hasSuperclass argsName ci.initStmts)
            else tp1) ctx ci 0).bind
          (fun tp3 => tp3.copyExpectedToken TokType.braceR)) := by
        intro t1 t1' hgg
        dsimp only at hgg
        have hd0 : ∃ dA, (if ci.constructorInsertPos = none ∧ ci.initStmts ≠ [] then
            t1.appendCode (synthCtorCode ci.headerInfo.hasSuperclass argsName ci.initStmts)
          else t1).out = t1.out ++ dA := by
          by_cases hP : ci.constructorInsertPos = none ∧ ci.initStmts ≠ []
          · rw [if_pos hP]
            exact appendCode_out t1 _
          · rw [if_neg hP]
            exact ⟨[], by simp⟩
        obtain ⟨dA, hdA⟩ := hd0
        obtain ⟨dB, hdB⟩ := outMono_bind
          (f := fun t => classBodyLoop oracle fuel t ctx ci 0)
          (g := fun t3 => t3.copyExpectedToken TokType.braceR)
          (classBodyLoop_mono oracle h fuel ctx ci 0)
          (copyExpectedToken_mono TokType.braceR) _ t1' hgg
        exact ⟨dA ++ dB, by rw [hdB, hdA, List.append_assoc]⟩
      exact outMono_bind (copyExpectedToken_mono TokType.braceL) hg tp tp' hs

/-- C5: a class expression with at least one static-initializer suffix is
wrapped in a comma expression ` (tmp = class ... , tmp<suffix>, ..., tmp)`
that assigns the class to the fresh temporary, evaluates each
static-initializer statement, and ends with the temporary; the temporary
is recorded among the generated variables.  A class that is not such an
expression instead has the static-initializer statements appended as
plain trailing statements ` Name<suffix>; ...;` after the class body, and
no temporary is minted. -/
theorem processClass_static_initializers
    (oracle : TP → Option TP) (fuel : Nat) (tp : TP) (ci : ClassInfo)
    (freshName argsName : String) (gvars : List String) (tp' : TP)
    (gv' : List String)
    (hmono : OutMono oracle)
    (hres : processClass oracle fuel tp ci freshName argsName gvars =
      some (tp', gv')) :
    (ci.headerInfo.isExpression = true → ci.staticSuffixes ≠ [] →
      ∃ mid, tp'.out = tp.out ++ [" (" ++ freshName ++ " ="] ++ mid ++
          [", " ++ String.intercalate ", "
              (ci.staticSuffixes.map (fun suf => freshName ++ suf)) ++
            ", " ++ freshName ++ ")"] ∧
        gv' = gvars ++ [freshName]) ∧
    (¬ (ci.headerInfo.isExpression = true ∧ ci.staticSuffixes ≠ []) →
      ci.staticSuffixes ≠ [] →
      ∃ mid, tp'.out = tp.out ++ mid ++
          [" " ++ String.intercalate "; "
              (ci.staticSuffixes.map
                (fun suf => ci.headerInfo.className ++ suf)) ++ ";"] ∧
        gv' = gvars) := by
  constructor
  · intro hexp hsuf
    have hP : ci.headerInfo.isExpression = true ∧ ci.staticSuffixes ≠ [] :=
      ⟨hexp, hsuf⟩
    have hkey : processClass oracle fuel tp ci freshName argsName gvars =
        (((tp.appendCode (" (" ++ freshName ++ " =")).copyExpectedToken
            TokType._class).bind (fun tp1 =>
          (headerWalk oracle fuel tp1
              (match (tp.appendCode (" (" ++ freshName ++ " =")).toks with
               | [] => 0
               | tok :: _ => tok.contextId.getD 0)).bind (fun tp2 =>
            (processClassBody oracle fuel tp2 ci argsName).bind (fun tp3 =>
              some (tp3.appendCode
                (", " ++ String.intercalate ", "
                    (ci.staticSuffixes.map (fun suf => freshName ++ suf)) ++
                  ", " ++ freshName ++ ")"), gvars ++ [freshName]))))) ∨
        processClass oracle fuel tp ci freshName argsName gvars = none := by
      unfold processClass
      simp only [if_pos hP]
      cases htoks : (tp.appendCode (" (" ++ freshName ++ " =")).toks with
      | nil => exact Or.inr rfl
      | cons tok rest2 =>
        cases hctx : tok.contextId with
        | none => simp only [htoks, hctx]; exact Or.inr trivial
        | some ctx =>
          simp only [htoks, hctx]
          exact Or.inl rfl
    rcases hkey with hkey | hkey
    on_goal 2 => rw [hkey] at hres; exact Option.noConfusion hres
    · rw [hkey] at hres
      cases hce : (tp.appendCode (" (" ++ freshName ++ " =")).copyExpectedToken
          TokType._class with
      | none => rw [hce] at hres; exact Option.noConfusion hres
      | some tp1 =>
        simp only [hce, Option.some_bind] at hres
        cases hhw : headerWalk oracle fuel tp1
            (match (tp.appendCode (" (" ++ freshName ++ " =")).toks with
             | [] => 0
             | tok :: _ => tok.contextId.getD 0) with
        | none => rw [hhw] at hres; exact Option.noConfusion hres
        | some tp2 =>
          simp only [hhw, Option.some_bind] at hres
          cases hcb : processClassBody oracle fuel tp2 ci argsName with
          | none => rw [hcb] at hres; exact Option.noConfusion hres
          | some tp3 =>
            simp only [hcb, Option.some_bind] at hres
            have hpair := Option.some.inj hres
            have htp' : tp' = tp3.appendCode
                (", " ++ String.intercalate ", "
                    (ci.staticSuffixes.map (fun suf => freshName ++ suf)) ++
                  ", " ++ freshName ++ ")") := (congrArg Prod.fst hpair).symm
            have hgv : gv' = gvars ++ [freshName] :=
              (congrArg Prod.snd hpair).symm
            obtain ⟨d1, hd1⟩ := copyExpectedToken_mono TokType._class _ tp1 hce
            obtain ⟨d2, hd2⟩ := headerWalk_mono oracle hmono fuel _ tp1 tp2 hhw
            obtain ⟨d3, hd3⟩ := processClassBody_mono oracle hmono fuel ci
              argsName tp2 tp3 hcb
            refine ⟨d1 ++ (d2 ++ d3), ?_, hgv⟩
            rw [htp']
            show tp3.out ++ [_] = _
            rw [hd3, hd2, hd1]
            show (tp.out ++ [" (" ++ freshName ++ " ="]) ++ d1 ++ d2 ++ d3 ++ [_] = _
            simp [List.append_assoc]
  · intro hnP hsuf
    have hkey : processClass oracle fuel tp ci freshName argsName gvars =
        ((tp.copyExpectedToken TokType._class).bind (fun tp1 =>
          (headerWalk oracle fuel tp1
              (match tp.toks with
               | [] => 0
               | tok :: _ => tok.contextId.getD 0)).bind (fun tp2 =>
            (processClassBody oracle fuel tp2 ci argsName).bind (fun tp3 =>
              some (tp3.appendCode
                (" " ++ String.intercalate "; "
                    (ci.staticSuffixes.map
                      (fun suf => ci.headerInfo.className ++ suf)) ++ ";"),
                gvars))))) ∨
        processClass oracle fuel tp ci freshName argsName gvars = none := by
      unfold processClass
      simp only [if_neg hnP, if_pos hsuf]
      cases htoks : tp.toks with
      | nil => exact Or.inr rfl
      | cons tok rest2 =>
        cases hctx : tok.contextId with
        | none => simp only [htoks, hctx]; exact Or.inr trivial
        | some ctx =>
          simp only [htoks, hctx]
          exact Or.inl rfl
    rcases hkey with hkey | hkey
    on_goal 2 => rw [hkey] at hres; exact Option.noConfusion hres
    · rw [hkey] at hres
      cases hce : tp.copyExpectedToken TokType._class with
      | none => rw [hce] at hres; exact Option.noConfusion hres
      | some tp1 =>
        simp only [hce, Option.some_bind] at hres
        cases hhw : headerWalk oracle fuel tp1
            (match tp.toks with
             | [] => 0
             | tok :: _ => tok.contextId.getD 0) with
        | none => rw [hhw] at hres; exact Option.noConfusion hres
        | some tp2 =>
          simp only [hhw, Option.some_bind] at hres
          cases hcb : processClassBody oracle fuel tp2 ci argsName with
          | none => rw [hcb] at hres; exact Option.noConfusion hres
          | some tp3 =>
            simp only [hcb, Option.some_bind] at hres
            have hpair := Option.some.inj hres
            have htp' : tp' = tp3.appendCode
                (" " ++ String.intercalate "; "
                    (ci.staticSuffixes.map
                      (fun suf => ci.headerInfo.className ++ suf)) ++ ";") :=
              (congrArg Prod.fst hpair).symm
            have hgv : gv' = gvars := (congrArg Prod.snd hpair).symm
            obtain ⟨d1, hd1⟩ := copyExpectedToken_mono TokType._class _ tp1 hce
            obtain ⟨d2, hd2⟩ := headerWalk_mono oracle hmono fuel _ tp1 tp2 hhw
            obtain ⟨d3, hd3⟩ := processClassBody_mono oracle hmono fuel ci
              argsName tp2 tp3 hcb
            refine ⟨d1 ++ (d2 ++ d3), ?_, hgv⟩
            rw [htp']
            show tp3.out ++ [_] = _
            rw [hd3, hd2, hd1]
            simp [List.append_assoc]

/-- Header and body tokens of a minimal class construct `class { }`
(context id 5). -/
def sampleClassExprToks : List Tok :=
  [⟨TokType._class, "", "class", some 5, false⟩,
   ⟨TokType.braceL, " ", "\x7b", some 5, false⟩,
   ⟨TokType.braceR, "", "\x7d", some 5, false⟩]

/-- ClassInfo for the class used as an expression with one static
suffix. -/
def sampleExprInfo : ClassInfo := ⟨⟨true, false, "C"⟩, none, [], [], [".x = 1"]⟩

/-- ClassInfo for the same class as a statement named `C`. -/
def sampleStmtInfo : ClassInfo := ⟨⟨false, false, "C"⟩, none, [], [], [".x = 1"]⟩

/-- Witness for C5: the expression class becomes
` (_cls = class { }, _cls.x = 1, _cls)` with `_cls` recorded as a
generated variable; the statement class instead gets ` C.x = 1;` appended
after its body. -/
theorem processClass_static_initializers_witness :
    (∃ mid, (⟨3, [], [" (_cls =", "class", " \x7b", "\x7d",
        ", _cls.x = 1, _cls)"]⟩ : TP).out =
        (⟨0, sampleClassExprToks, []⟩ : TP).out ++ [" (" ++ "_cls" ++ " ="] ++
          mid ++
          [", " ++ String.intercalate ", "
              (sampleExprInfo.staticSuffixes.map (fun suf => "_cls" ++ suf)) ++
            ", " ++ "_cls" ++ ")"] ∧
        (["_cls"] : List String) = [] ++ ["_cls"]) ∧
    (∃ mid, (⟨3, [], ["class", " \x7b", "\x7d", " C.x = 1;"]⟩ : TP).out =
        (⟨0, sampleClassExprToks, []⟩ : TP).out ++ mid ++
          [" " ++ String.intercalate "; "
              (sampleStmtInfo.staticSuffixes.map
                (fun suf => sampleStmtInfo.headerInfo.className ++ suf)) ++
            ";"] ∧
        ([] : List String) = ([] : List String)) :=
  ⟨(processClass_static_initializers (fun _ => none) 8
      ⟨0, sampleClassExprToks, []⟩ sampleExprInfo "_cls" "_args" []
      ⟨3, [], [" (_cls =", "class", " \x7b", "\x7d", ", _cls.x = 1, _cls)"]⟩
      ["_cls"] (fun _ _ hh => Option.noConfusion hh) rfl).1 rfl (by decide),
   (processClass_static_initializers (fun _ => none) 8
      ⟨0, sampleClassExprToks, []⟩ sampleStmtInfo "_cls" "_args" []
      ⟨3, [], ["class", " \x7b", "\x7d", " C.x = 1;"]⟩
      [] (fun _ _ hh => Option.noConfusion hh) rfl).2 (by decide) (by decide)⟩

/-! ## C6: intrinsic-element names (`processTagIntro`)

Embedding of `processTagIntro` and `startsWithLowerCase`
(src/src/register.ts lines 148-172 and 242-244).  The forward lookahead
(`matchesAtIndex`) is expressed relative to the cursor: offset `j` stands
for the source's `introEnd - currentIndex()`. -/

/-- The token type at offset `j` from the cursor. -/
def tokTypeAt (ts : List Tok) (j : Nat) : Option TokType :=
  (ts.get? j).map (fun t => t.ttype)

/-- The stop condition of the intro scan: a second `jsxName` starts the
first prop (ending the tag name), or a brace starts the first prop, or
the open tag ends, or the self-closing tag ends. -/
def stopCondIntro (ts : List Tok) (j : Nat) : Prop :=
  (tokTypeAt ts (j - 1) = some TokType.jsxName ∧
    tokTypeAt ts j = some TokType.jsxName) ∨
  tokTypeAt ts j = some TokType.braceL ∨
  tokTypeAt ts j = some TokType.jsxTagEnd ∨
  (tokTypeAt ts j = some TokType.slash ∧
    tokTypeAt ts (j + 1) = some TokType.jsxTagEnd)

instance (ts : List Tok) (j : Nat) : Decidable (stopCondIntro ts j) :=
  inferInstanceAs (Decidable (_ ∨ _ ∨ _ ∨ _))

/-- The `introEnd` scan loop (walk `introEnd` forward until the stop
condition holds); the source's loop has no bound of its own, so fuel
covers the scan (the parser guarantees a `jsxTagEnd`). -/
def introScanLen (ts : List Tok) : Nat → Nat → Option Nat
  | 0, _ => none
  | fuel + 1, j => if stopCondIntro ts j then some j else introScanLen ts fuel (j + 1)

/-- Embedding of `startsWithLowerCase`: `s[0] === s[0].toLowerCase()`
(`toLowerCase` modelled by `Char.toLower`; the claims only exercise ASCII
letters).  JavaScript would throw on the empty string, which
`identifierName` never produces. -/
def startsWithLowerCase (s : String) : Bool :=
  match s.data with
  | c :: _ => c.toLower = c
  | [] => true

/-- The final loop of `processTagIntro`: process tokens while
`currentIndex < introEnd`. -/
def consumeUntil (oracle : TP → Option TP) : Nat → TP → Nat → Option TP
  | 0, _, _ => none
  | fuel + 1, tp, target =>
    if tp.past < target then
      (processTokenStep oracle tp).bind
        (fun tp2 => consumeUntil oracle fuel tp2 target)
    else some tp

/-- Embedding of `processTagIntro`: scan forward for the end of the tag
intro; when the name is the single token before it and starts with a
lowercase letter, replace it by a quoted string literal; then process up
to the intro end. -/
def processTagIntro (oracle : TP → Option TP) (fuel : Nat) (tp : TP) :
    Option TP :=
  match introScanLen tp.toks fuel 1 with
  | none => none
  | some j =>
    let tp1 :=
      if j = 1 ∧ startsWithLowerCase tp.identifierName = true then
        tp.replaceToken ("\x27" ++ tp.identifierName ++ "\x27")
      else tp
    consumeUntil oracle fuel tp1 (tp.past + j)

/-- C6: a single-identifier JSX element name starting with a lowercase
letter is rewritten to a quoted string literal (`<div>` emits `'div'`); a
single-identifier name starting with an uppercase letter is copied
through unchanged as an identifier reference. -/
theorem processTagIntro_lowercase_to_string (oracle : TP → Option TP)
    (fuel p : Nat) (o : List String) (t0 : Tok) (rest : List Tok) (tp' : TP)
    (hT : t0.ttype = TokType.jsxName)
    (hstop : stopCondIntro (t0 :: rest) 1)
    (hfuel : 2 ≤ fuel)
    (hres : processTagIntro oracle fuel ⟨p, t0 :: rest, o⟩ = some tp') :
    (startsWithLowerCase t0.raw = true →
      tp' = ⟨p + 1, rest, o ++ [t0.pre ++ ("\x27" ++ t0.raw ++ "\x27")]⟩) ∧
    (startsWithLowerCase t0.raw = false →
      tp' = ⟨p + 1, rest, o ++ [t0.pre ++ t0.raw]⟩) := by
  obtain ⟨f, rfl⟩ : ∃ f, fuel = f + 2 := ⟨fuel - 2, by omega⟩
  have hscan : introScanLen (t0 :: rest) (f + 2) 1 = some 1 := by
    unfold introScanLen
    rw [if_pos hstop]
  unfold processTagIntro at hres
  rw [show (⟨p, t0 :: rest, o⟩ : TP).toks = t0 :: rest from rfl, hscan] at hres
  dsimp only at hres
  have hid : TP.identifierName ⟨p, t0 :: rest, o⟩ = t0.raw := rfl
  rw [hid] at hres
  constructor
  · intro hlc
    rw [if_pos ⟨rfl, hlc⟩] at hres
    have hrep : TP.replaceToken ⟨p, t0 :: rest, o⟩
        ("\x27" ++ t0.raw ++ "\x27") =
        ⟨p + 1, rest, o ++ [t0.pre ++ ("\x27" ++ t0.raw ++ "\x27")]⟩ := rfl
    rw [hrep] at hres
    have hcu : consumeUntil oracle (f + 2)
        ⟨p + 1, rest, o ++ [t0.pre ++ ("\x27" ++ t0.raw ++ "\x27")]⟩
        ((⟨p, t0 :: rest, o⟩ : TP).past + 1) = some
        ⟨p + 1, rest, o ++ [t0.pre ++ ("\x27" ++ t0.raw ++ "\x27")]⟩ := by
      unfold consumeUntil
      rw [if_neg (by show ¬ p + 1 < p + 1; omega)]
    rw [hcu] at hres
    exact (Option.some.inj hres).symm
  · intro hlc
    rw [if_neg (by
      rintro ⟨-, hc⟩
      rw [hlc] at hc
      exact Bool.false_ne_true hc)] at hres
    have hstep : processTokenStep oracle ⟨p, t0 :: rest, o⟩ =
        some ⟨p + 1, rest, o ++ [t0.pre ++ t0.raw]⟩ := by
      unfold processTokenStep
      dsimp only
      rw [if_neg (by
        rw [hT]
        rintro (hc | hc) <;> exact TokType.noConfusion hc)]
      rfl
    have hcu : consumeUntil oracle (f + 2) ⟨p, t0 :: rest, o⟩
        ((⟨p, t0 :: rest, o⟩ : TP).past + 1) = some
        ⟨p + 1, rest, o ++ [t0.pre ++ t0.raw]⟩ := by
      unfold consumeUntil
      rw [if_pos (by show p < p + 1; omega), hstep, Option.some_bind]
      unfold consumeUntil
      rw [if_neg (by show ¬ p + 1 < p + 1; omega)]
    rw [hcu] at hres
    exact (Option.some.inj hres).symm

/-- Witness for C6: `<div>` has its name token replaced by `'div'`;
`<Foo>` keeps its name token unchanged. -/
theorem processTagIntro_lowercase_to_string_witness :
    (⟨1, [⟨TokType.jsxTagEnd, "", ">", none, false⟩],
        ["\x27div\x27"]⟩ : TP) =
      ⟨0 + 1, [⟨TokType.jsxTagEnd, "", ">", none, false⟩],
        [] ++ ["" ++ ("\x27" ++ "div" ++ "\x27")]⟩ ∧
    (⟨1, [⟨TokType.jsxTagEnd, "", ">", none, false⟩], ["Foo"]⟩ : TP) =
      ⟨0 + 1, [⟨TokType.jsxTagEnd, "", ">", none, false⟩],
        [] ++ ["" ++ "Foo"]⟩ :=
  ⟨(processTagIntro_lowercase_to_string (fun _ => none) 2 0 []
      ⟨TokType.jsxName, "", "div", none, false⟩
      [⟨TokType.jsxTagEnd, "", ">", none, false⟩]
      ⟨1, [⟨TokType.jsxTagEnd, "", ">", none, false⟩], ["\x27div\x27"]⟩
      rfl (by decide) (by decide) rfl).1 rfl,
   (processTagIntro_lowercase_to_string (fun _ => none) 2 0 []
      ⟨TokType.jsxName, "", "Foo", none, false⟩
      [⟨TokType.jsxTagEnd, "", ">", none, false⟩]
      ⟨1, [⟨TokType.jsxTagEnd, "", ">", none, false⟩], ["Foo"]⟩
      rfl (by decide) (by decide) rfl).2 rfl⟩

/-! ## C10: JSX children (`processChildren`)

Embedding of `processChildren` (src/src/register.ts lines 174-202), of the
token-level balanced walk it re-enters (`processBalancedCode` over the
cursor), and of the per-token dispatch.  A nested `processJSXTag` is the
`oracle`.  To compare a run against the run on the same stream with a
child absent, we use the fact that all of these functions are local: they
read only the remaining tokens, and their effect is to advance the cursor
and append fragments, independently of the entry position and of the
output already emitted (`Rebases`). -/

/-- Embedding of `processBalancedCode` acting on the cursor (lines
88-110), with the per-token dispatch `processTokenStep`. -/
def processBalancedTP (oracle : TP → Option TP) :
    Nat → TP → Nat → Nat → Option TP
  | 0, _, _, _ => none
  | fuel + 1, tp, bd, pd =>
    match tp.toks with
    | [] => some tp
    | t :: _ =>
      if t.ttype = TokType.braceL ∨ t.ttype = TokType.dollarBraceL then
        (processTokenStep oracle tp).bind
          (fun tp2 => processBalancedTP oracle fuel tp2 (bd + 1) pd)
      else if t.ttype = TokType.braceR then
        if bd = 0 then some tp
        else (processTokenStep oracle tp).bind
          (fun tp2 => processBalancedTP oracle fuel tp2 (bd - 1) pd)
      else if t.ttype = TokType.parenL then
        (processTokenStep oracle tp).bind
          (fun tp2 => processBalancedTP oracle fuel tp2 bd (pd + 1))
      else if t.ttype = TokType.parenR then
        if pd = 0 then some tp
        else (processTokenStep oracle tp).bind
          (fun tp2 => processBalancedTP oracle fuel tp2 bd (pd - 1))
      else
        (processTokenStep oracle tp).bind
          (fun tp2 => processBalancedTP oracle fuel tp2 bd pd)

/-- Embedding of `processChildren`: stop at a closing tag; an empty
interpolation `{}` has both braces replaced by empty text; an
interpolated expression becomes `, <expr>`; a nested element becomes
another argument via `processJSXTag` (the oracle); a text run goes
through `processChildTextElement`; anything else is the source's thrown
error. -/
def processChildren (oracle : TP → Option TP) : Nat → TP → Option TP
  | 0, _ => none
  | fuel + 1, tp =>
    if tp.matches2 TokType.jsxTagStart TokType.slash then some tp
    else if tp.matches1 TokType.braceL then
      (if tp.matches2 TokType.braceL TokType.braceR then
        processChildren oracle fuel ((tp.replaceToken "").replaceToken "")
      else
        (processBalancedTP oracle fuel (tp.replaceToken ", ") 0 0).bind
          (fun tp2 => processChildren oracle fuel (tp2.replaceToken "")))
    else if tp.matches1 TokType.jsxTagStart then
      (oracle (tp.appendCode ", ")).bind
        (fun tp2 => processChildren oracle fuel tp2)
    else if tp.matches1 TokType.jsxText then
      processChildren oracle fuel (processChildTextElement tp)
    else none

/-- Rebase a run result from the empty entry state onto entry position
`p` and already-emitted output `o`. -/
def reb (p : Nat) (o : List String) (r : TP) : TP :=
  ⟨p + r.past, r.toks, o ++ r.out⟩

/-- A processing function is local: its behaviour depends only on the
remaining tokens, advancing the cursor and appending output
independently of the entry position and of the output already
emitted. -/
def Rebases (f : TP → Option TP) : Prop :=
  ∀ (p : Nat) (o : List String) (ts : List Tok),
    f ⟨p, ts, o⟩ = Option.map (reb p o) (f ⟨0, ts, []⟩)

theorem reb_reb (p p' : Nat) (o o' : List String) (r : TP) :
    reb p o (reb p' o' r) = reb (p + p') (o ++ o') r := by
  unfold reb
  simp [Nat.add_assoc, List.append_assoc]

theorem rebases_bind {f g : TP → Option TP} (hf : Rebases f)
    (hg : Rebases g) : Rebases (fun tp => (f tp).bind g) := by
  intro p o ts
  dsimp only
  rw [hf p o ts]
  cases hb : f ⟨0, ts, []⟩ with
  | none => rfl
  | some r =>
    rw [show Option.map (reb p o) (some r) = some (reb p o r) from rfl,
      Option.some_bind]
    have hgr : g r = Option.map (reb r.past r.out) (g ⟨0, r.toks, []⟩) :=
      hg r.past r.out r.toks
    rw [show reb p o r = (⟨p + r.past, r.toks, o ++ r.out⟩ : TP) from rfl,
      hg (p + r.past) (o ++ r.out) r.toks]
    rw [Option.some_bind, hgr]
    cases g ⟨0, r.toks, []⟩ with
    | none => rfl
    | some r2 =>
      rw [show Option.map (reb r.past r.out) (some r2) =
          some (reb r.past r.out r2) from rfl]
      rw [show Option.map (reb p o) (some (reb r.past r.out r2)) =
          some (reb p o (reb r.past r.out r2)) from rfl]
      rw [show Option.map (reb (p + r.past) (o ++ r.out)) (some r2) =
          some (reb (p + r.past) (o ++ r.out) r2) from rfl]
      rw [reb_reb]

theorem rebases_copyToken : Rebases (fun tp => some tp.copyToken) := by
  intro p o ts
  cases ts with
  | nil => simp [TP.copyToken, reb]
  | cons t rest => simp [TP.copyToken, reb]

theorem rebases_replaceToken (s : String) :
    Rebases (fun tp => some (tp.replaceToken s)) := by
  intro p o ts
  cases ts with
  | nil => simp [TP.replaceToken, reb]
  | cons t rest => simp [TP.replaceToken, reb]

theorem rebases_appendCode (s : String) :
    Rebases (fun tp => some (tp.appendCode s)) := by
  intro p o ts
  simp [TP.appendCode, reb]

theorem rebases_processChildTextElement :
    Rebases (fun tp => some (processChildTextElement tp)) := by
  intro p o ts
  cases ts with
  | nil => simp [processChildTextElement, reb]
  | cons t rest =>
    unfold processChildTextElement
    dsimp only
    by_cases hlit : formatJSXTextLiteral t.raw.data = "\"\""
    · rw [if_pos hlit, if_pos hlit]
      exact rebases_replaceToken _ p o (t :: rest)
    · rw [if_neg hlit, if_neg hlit]
      exact rebases_replaceToken _ p o (t :: rest)

theorem rebases_processTokenStep (oracle : TP → Option TP)
    (h : Rebases oracle) : Rebases (processTokenStep oracle) := by
  intro p o ts
  unfold processTokenStep
  cases ts with
  | nil => simp [TP.copyToken, reb]
  | cons t rest =>
    dsimp only
    by_cases hc : t.ttype = TokType._class ∨ t.ttype = TokType.jsxTagStart
    · rw [if_pos hc, if_pos hc]
      exact h p o (t :: rest)
    · rw [if_neg hc, if_neg hc]
      exact rebases_copyToken p o (t :: rest)

theorem rebases_processBalancedTP (oracle : TP → Option TP)
    (h : Rebases oracle) : ∀ (fuel bd pd : Nat),
    Rebases (fun tp => processBalancedTP oracle fuel tp bd pd) := by
  intro fuel
  induction fuel with
  | zero => intro bd pd p o ts; simp [processBalancedTP]
  | succ f ih =>
    intro bd pd p o ts
    dsimp only
    unfold processBalancedTP
    cases ts with
    | nil => simp [reb]
    | cons t rest =>
      dsimp only
      by_cases h1 : t.ttype = TokType.braceL ∨ t.ttype = TokType.dollarBraceL
      · rw [if_pos h1, if_pos h1]
        exact rebases_bind (rebases_processTokenStep oracle h)
          (ih (bd + 1) pd) p o (t :: rest)
      · rw [if_neg h1, if_neg h1]
        by_cases h2 : t.ttype = TokType.braceR
        · rw [if_pos h2, if_pos h2]
          by_cases hz : bd = 0
          · rw [if_pos hz, if_pos hz]
            simp [reb]
          · rw [if_neg hz, if_neg hz]
            exact rebases_bind (rebases_processTokenStep oracle h)
              (ih (bd - 1) pd) p o (t :: rest)
        · rw [if_neg h2, if_neg h2]
          by_cases h3 : t.ttype = TokType.parenL
          · rw [if_pos h3, if_pos h3]
            exact rebases_bind (rebases_processTokenStep oracle h)
              (ih bd (pd + 1)) p o (t :: rest)
          · rw [if_neg h3, if_neg h3]
            by_cases h4 : t.ttype = TokType.parenR
            · rw [if_pos h4, if_pos h4]
              by_cases hz : pd = 0
              · rw [if_pos hz, if_pos hz]
                simp [reb]
              · rw [if_neg hz, if_neg hz]
                exact rebases_bind (rebases_processTokenStep oracle h)
                  (ih bd (pd - 1)) p o (t :: rest)
            · rw [if_neg h4, if_neg h4]
              exact rebases_bind (rebases_processTokenStep oracle h)
                (ih bd pd) p o (t :: rest)

theorem rebases_processChildren (oracle : TP → Option TP)
    (h : Rebases oracle) : ∀ fuel : Nat,
    Rebases (processChildren oracle fuel) := by
  intro fuel
  induction fuel with
  | zero => intro p o ts; simp [processChildren]
  | succ f ih =>
    intro p o ts
    unfold processChildren
    by_cases hc1 :
        TP.matches2 ⟨0, ts, []⟩ TokType.jsxTagStart TokType.slash = true
    · rw [if_pos (show TP.matches2 ⟨p, ts, o⟩ TokType.jsxTagStart
          TokType.slash = true from hc1), if_pos hc1]
      simp [reb]
    · rw [if_neg (show ¬ TP.matches2 ⟨p, ts, o⟩ TokType.jsxTagStart
          TokType.slash = true from hc1), if_neg hc1]
      by_cases hc2 : TP.matches1 ⟨0, ts, []⟩ TokType.braceL = true
      · rw [if_pos (show TP.matches1 ⟨p, ts, o⟩ TokType.braceL = true from hc2),
          if_pos hc2]
        by_cases hc3 :
            TP.matches2 ⟨0, ts, []⟩ TokType.braceL TokType.braceR = true
        · rw [if_pos (show TP.matches2 ⟨p, ts, o⟩ TokType.braceL
              TokType.braceR = true from hc3), if_pos hc3]
          exact rebases_bind (rebases_replaceToken "")
            (rebases_bind (rebases_replaceToken "") ih) p o ts
        · rw [if_neg (show ¬ TP.matches2 ⟨p, ts, o⟩ TokType.braceL
              TokType.braceR = true from hc3), if_neg hc3]
          exact rebases_bind (rebases_replaceToken ", ")
            (rebases_bind (rebases_processBalancedTP oracle h f 0 0)
              (rebases_bind (rebases_replaceToken "") ih)) p o ts
      · rw [if_neg (show ¬ TP.matches1 ⟨p, ts, o⟩ TokType.braceL = true from hc2),
          if_neg hc2]
        by_cases hc4 : TP.matches1 ⟨0, ts, []⟩ TokType.jsxTagStart = true
        · rw [if_pos (show TP.matches1 ⟨p, ts, o⟩ TokType.jsxTagStart = true
              from hc4), if_pos hc4]
          exact rebases_bind (rebases_appendCode ", ")
            (rebases_bind h ih) p o ts
        · rw [if_neg (show ¬ TP.matches1 ⟨p, ts, o⟩ TokType.jsxTagStart = true
              from hc4), if_neg hc4]
          by_cases hc5 : TP.matches1 ⟨0, ts, []⟩ TokType.jsxText = true
          · rw [if_pos (show TP.matches1 ⟨p, ts, o⟩ TokType.jsxText = true
                from hc5), if_pos hc5]
            exact rebases_bind rebases_processChildTextElement ih p o ts
          · rw [if_neg (show ¬ TP.matches1 ⟨p, ts, o⟩ TokType.jsxText = true
                from hc5), if_neg hc5]
            rfl

/-- C10: a JSX element child that is an interpolation with no tokens
between its braces (`{}`) contributes no call argument: both brace tokens
are replaced by empty text (only their untouched preceding regions are
emitted, no `, ` separator and no argument text), and the rest of the
children produce exactly the same emitted fragments as a run in which
that child is absent. -/
theorem processChildren_empty_interpolation (oracle : TP → Option TP)
    (hreb : Rebases oracle) (fuel p : Nat) (o : List String)
    (tb tr : Tok) (rest : List Tok) (tpF : TP)
    (hb : tb.ttype = TokType.braceL) (hr : tr.ttype = TokType.braceR)
    (hF : processChildren oracle (fuel + 1) ⟨p, tb :: tr :: rest, o⟩ =
      some tpF) :
    ∃ tpA d, processChildren oracle fuel ⟨p, rest, o⟩ = some tpA ∧
      tpA.out = o ++ d ∧
      tpF.out = o ++ [tb.pre ++ "", tr.pre ++ ""] ++ d ∧
      tpF.toks = tpA.toks := by
  have hnc1 : ¬ TP.matches2 ⟨p, tb :: tr :: rest, o⟩ TokType.jsxTagStart
      TokType.slash = true := by
    simp [TP.matches2, hb]
  have hc2 : TP.matches1 ⟨p, tb :: tr :: rest, o⟩ TokType.braceL = true := by
    simp [TP.matches1, hb]
  have hc3 : TP.matches2 ⟨p, tb :: tr :: rest, o⟩ TokType.braceL
      TokType.braceR = true := by
    simp [TP.matches2, hb, hr]
  unfold processChildren at hF
  rw [if_neg hnc1, if_pos hc2, if_pos hc3] at hF
  have harg : ((⟨p, tb :: tr :: rest, o⟩ : TP).replaceToken "").replaceToken "" =
      ⟨p + 1 + 1, rest, (o ++ [tb.pre ++ ""]) ++ [tr.pre ++ ""]⟩ := rfl
  rw [harg] at hF
  rw [rebases_processChildren oracle hreb fuel (p + 1 + 1)
    ((o ++ [tb.pre ++ ""]) ++ [tr.pre ++ ""]) rest] at hF
  cases hC0 : processChildren oracle fuel ⟨0, rest, []⟩ with
  | none => rw [hC0] at hF; exact Option.noConfusion hF
  | some r =>
    rw [hC0] at hF
    have htpF : tpF =
        reb (p + 1 + 1) ((o ++ [tb.pre ++ ""]) ++ [tr.pre ++ ""]) r :=
      (Option.some.inj hF).symm
    refine ⟨reb p o r, r.out, ?_, rfl, ?_, ?_⟩
    · rw [rebases_processChildren oracle hreb fuel p o rest, hC0]
      rfl
    · rw [htpF]
      show ((o ++ [tb.pre ++ ""]) ++ [tr.pre ++ ""]) ++ r.out = _
      simp [List.append_assoc]
    · rw [htpF]
      rfl

/-- Witness for C10: between `{}` and the closing tag, the run emits only
the braces' (empty) preceding regions and then stops exactly like the run
without the `{}` child. -/
theorem processChildren_empty_interpolation_witness :
    ∃ tpA d, processChildren (fun tp => some tp) 1
        ⟨0, [⟨TokType.jsxTagStart, "", "<", none, false⟩,
             ⟨TokType.slash, "", "/", none, false⟩], []⟩ = some tpA ∧
      tpA.out = [] ++ d ∧
      (⟨2, [⟨TokType.jsxTagStart, "", "<", none, false⟩,
            ⟨TokType.slash, "", "/", none, false⟩], ["", ""]⟩ : TP).out =
        [] ++ ["" ++ "", "" ++ ""] ++ d ∧
      (⟨2, [⟨TokType.jsxTagStart, "", "<", none, false⟩,
            ⟨TokType.slash, "", "/", none, false⟩], ["", ""]⟩ : TP).toks =
        tpA.toks :=
  processChildren_empty_interpolation (fun tp => some tp)
    (by intro p o ts; simp [reb]) 1 0 []
    ⟨TokType.braceL, "", "\x7b", none, false⟩
    ⟨TokType.braceR, "", "\x7d", none, false⟩
    [⟨TokType.jsxTagStart, "", "<", none, false⟩,
     ⟨TokType.slash, "", "/", none, false⟩]
    ⟨2, [⟨TokType.jsxTagStart, "", "<", none, false⟩,
         ⟨TokType.slash, "", "/", none, false⟩], ["", ""]⟩
    rfl rfl rfl
